import Mathlib

/-!
# Verification of the crypt3 hash-format model and dispatch engine

Shallow embedding of the crypt3 repository's hash-format core: the
`HashSlice` parsing cursor (src/parse.rs), the tagged `Hash` sum type and
its recognizer (src/hash.rs), the per-variant framing of `hash`,
`hash_with` and `verify` (src/crypt/apr1.rs, src/crypt/bsdi.rs,
src/crypt/unix.rs, src/lib.rs), the salt generator (src/random.rs), and —
modelled from the specification where the repository files are not part of
the excerpt (the radix-64 codec of encode.rs and the opaque digest
engines) — the engine boundary each variant wraps.

Strings are embedded as lists of byte values (`List Nat`, each < 256);
string slicing mirrors the byte-level behaviour of the Rust source,
including the `str::from_utf8` validity check performed by the cursor.
-/

set_option autoImplicit false

namespace Crypt3

/-- Error taxonomy of src/error.rs (declared by its users in src/: the
variants named by src/hash.rs, src/crypt/*.rs and the spec §7). -/
inductive Error where
  | InsufficientLength
  | InvalidHashString
  | EncodingError
  | InvalidRounds
  | Io
deriving DecidableEq, Repr

/-! ## The radix-64 crypt alphabet (RadixCodec, spec §4.1)

Modelled from the spec: encode.rs is absent from src/. The alphabet is the
crypt(3) set `./0-9A-Za-z` in index order; `alphaIdx` is the partial
inverse used for decoding, failing (`none`) outside the alphabet. -/

/-- Character of the radix-64 alphabet at index `i` (callers reduce mod 64). -/
def alphaChar (i : Nat) : Nat :=
  if i = 0 then 46
  else if i = 1 then 47
  else if i < 12 then 46 + i
  else if i < 38 then 53 + i
  else 59 + i

/-- Index of byte `c` in the radix-64 alphabet, `none` if not a member. -/
def alphaIdx (c : Nat) : Option Nat :=
  if c = 46 then some 0
  else if c = 47 then some 1
  else if 48 ≤ c ∧ c ≤ 57 then some (c - 46)
  else if 65 ≤ c ∧ c ≤ 90 then some (c - 53)
  else if 97 ≤ c ∧ c ≤ 122 then some (c - 59)
  else none

/-- Membership in the radix-64 alphabet. -/
def inAlpha (c : Nat) : Bool := (alphaIdx c).isSome

theorem alphaIdx_alphaChar (d : Nat) (hd : d < 64) : alphaIdx (alphaChar d) = some d := by
  have h : ∀ i : Fin 64, alphaIdx (alphaChar i.val) = some i.val := by decide
  exact h ⟨d, hd⟩

theorem inAlpha_ascii {c : Nat} (h : inAlpha c = true) : c ≤ 127 := by
  unfold inAlpha alphaIdx at h
  split_ifs at h <;> first | omega | simp_all

theorem inAlpha_dollar : inAlpha 36 = false := by decide

theorem alphaChar_lt (d : Nat) (hd : d < 64) : alphaChar d ≤ 127 := by
  unfold alphaChar
  split_ifs <;> omega

/-! ## UTF-8 validity

The cursor of src/parse.rs returns `str::from_utf8(&self.bp[a..b]).ok()`:
a byte slice is produced only when it is valid UTF-8. `utf8Valid` is the
standard UTF-8 well-formedness predicate on byte lists. -/

/-- One-pass UTF-8 DFA over a byte list, following the table enforced by
Rust's `str::from_utf8` (no overlong forms, no surrogates, max U+10FFFF).
`need` counts continuation bytes still expected; `lo`/`hi` bound the next
byte when `need > 0` (subsequent continuation bytes are `128..191`). -/
def utf8Scan : List Nat → Nat → Nat → Nat → Bool
  | [], need, _, _ => decide (need = 0)
  | b :: r, 0, _, _ =>
    if b ≤ 127 then utf8Scan r 0 0 0
    else if 194 ≤ b ∧ b ≤ 223 then utf8Scan r 1 128 191
    else if b = 224 then utf8Scan r 2 160 191
    else if 225 ≤ b ∧ b ≤ 236 then utf8Scan r 2 128 191
    else if b = 237 then utf8Scan r 2 128 159
    else if 238 ≤ b ∧ b ≤ 239 then utf8Scan r 2 128 191
    else if b = 240 then utf8Scan r 3 144 191
    else if 241 ≤ b ∧ b ≤ 243 then utf8Scan r 3 128 191
    else if b = 244 then utf8Scan r 3 128 143
    else false
  | b :: r, need + 1, lo, hi => decide (lo ≤ b ∧ b ≤ hi) && utf8Scan r need 128 191

/-- UTF-8 validity of a byte list: what `str::from_utf8(...).is_ok()` checks. -/
def utf8Valid (l : List Nat) : Bool := utf8Scan l 0 0 0

theorem utf8Valid_of_ascii : ∀ {l : List Nat}, (∀ b ∈ l, b ≤ 127) → utf8Valid l = true := by
  intro l
  induction l with
  | nil => intro _; rfl
  | cons b r ih =>
    intro h
    have hb : b ≤ 127 := h b (List.mem_cons_self b r)
    unfold utf8Valid utf8Scan
    rw [if_pos hb]
    exact ih fun x hx => h x (List.mem_cons_of_mem b hx)

/-! ## The parsing cursor (`HashSlice`, src/parse.rs)

State-passing embedding of `HashSlice` and the `HashIterator` trait: each
operation returns its result together with the successor cursor. -/

/-- `HashSlice` of src/parse.rs: borrowed byte string `bp`, its length
`len`, and the cursor position `pos`. -/
structure HashSlice where
  bp : List Nat
  len : Nat
  pos : Nat
deriving DecidableEq, Repr

/-- `HashSlice::new`. -/
def HashSlice.new (hash : List Nat) : HashSlice :=
  { bp := hash, len := hash.length, pos := 0 }

/-- The scanning loop inside `take_until`: starting at `sp`, advance while
`sp < len` and `bp[sp] != ac`; returns the final `sp`. The fuel argument
`len - sp` makes the recursion structural; the loop runs while it is
positive, exactly the source's `while sp < self.len`. -/
def scanGo (bp : List Nat) (ac : Nat) : Nat → Nat → Nat
  | 0, sp => sp
  | fuel + 1, sp => if bp.getD sp 0 = ac then sp else scanGo bp ac fuel (sp + 1)

/-- `HashIterator::take` for `HashSlice` (src/parse.rs lines 54-67). The
byte slice is surfaced only when it is valid UTF-8, mirroring
`str::from_utf8(&self.bp[sp..endp]).ok()`. -/
def HashSlice.take (hs : HashSlice) (n : Nat) : Option (List Nat) × HashSlice :=
  if hs.len < hs.pos then (none, hs)
  else
    let sp := hs.pos
    if hs.len < sp + n then (none, { hs with pos := hs.len + 1 })
    else
      let endp := hs.pos + n
      let pos' := endp + (if endp = hs.len then 1 else 0)
      let bytes := (hs.bp.drop sp).take n
      ((if utf8Valid bytes then some bytes else none), { hs with pos := pos' })

/-- `HashIterator::take_until` for `HashSlice` (src/parse.rs lines 69-83). -/
def HashSlice.take_until (hs : HashSlice) (ac : Nat) : Option (List Nat) × HashSlice :=
  if hs.len < hs.pos then (none, hs)
  else
    let sp := scanGo hs.bp ac (hs.len - hs.pos) hs.pos
    let bytes := (hs.bp.drop hs.pos).take (sp - hs.pos)
    ((if utf8Valid bytes then some bytes else none), { hs with pos := sp + 1 })

/-- `HashIterator::at_end` for `HashSlice` (src/parse.rs lines 85-87):
`self.take(0).unwrap_or("X") == "X"` — `"X"` is the byte 88. -/
def HashSlice.at_end (hs : HashSlice) : Bool × HashSlice :=
  let (r, hs') := hs.take 0
  (decide (r.getD [88] = [88]), hs')

/-! ### Cursor characterization lemmas -/

theorem take_of_exhausted (hs : HashSlice) (n : Nat) (h : hs.len < hs.pos) :
    hs.take n = (none, hs) := by
  unfold HashSlice.take
  rw [if_pos h]

theorem take_until_of_exhausted (hs : HashSlice) (ac : Nat) (h : hs.len < hs.pos) :
    hs.take_until ac = (none, hs) := by
  unfold HashSlice.take_until
  rw [if_pos h]

theorem take_of_short (hs : HashSlice) (n : Nat) (h1 : hs.pos ≤ hs.len)
    (h2 : hs.len < hs.pos + n) : hs.take n = (none, { hs with pos := hs.len + 1 }) := by
  unfold HashSlice.take
  rw [if_neg (by omega), if_pos (by omega)]

theorem take_of_avail (hs : HashSlice) (n : Nat) (h : hs.pos + n ≤ hs.len) :
    hs.take n =
      ((if utf8Valid ((hs.bp.drop hs.pos).take n) then some ((hs.bp.drop hs.pos).take n)
        else none),
       { hs with pos := hs.pos + n + (if hs.pos + n = hs.len then 1 else 0) }) := by
  unfold HashSlice.take
  rw [if_neg (by omega), if_neg (by omega)]

/-- `take` on an in-range slice of ASCII bytes succeeds with the slice. -/
theorem take_of_avail_ascii (hs : HashSlice) (n : Nat) (h : hs.pos + n ≤ hs.len)
    (ha : ∀ b ∈ hs.bp, b ≤ 127) :
    hs.take n =
      (some ((hs.bp.drop hs.pos).take n),
       { hs with pos := hs.pos + n + (if hs.pos + n = hs.len then 1 else 0) }) := by
  rw [take_of_avail hs n h, if_pos]
  exact utf8Valid_of_ascii fun b hb =>
    ha b (List.mem_of_mem_drop (List.mem_of_mem_take hb))

theorem getD_of_drop_cons : ∀ {bp : List Nat} {p x : Nat} {t : List Nat},
    bp.drop p = x :: t → bp.getD p 0 = x := by
  intro bp
  induction bp with
  | nil => intro p x t h; simp at h
  | cons y ys ih =>
    intro p x t h
    cases p with
    | zero => simp at h; simp [h.1]
    | succ p =>
      rw [List.drop_succ_cons] at h
      simpa [List.getD_cons_succ] using ih h

theorem drop_succ_of_drop_cons {bp : List Nat} {p x : Nat} {t : List Nat}
    (h : bp.drop p = x :: t) : bp.drop (p + 1) = t := by
  have h1 : bp.drop (p + 1) = (bp.drop p).drop 1 := by
    rw [List.drop_drop]
  rw [h1, h, List.drop_succ_cons, List.drop_zero]

theorem drop_nonempty {bp : List Nat} {p : Nat} (h : p < bp.length) :
    ∃ x t, bp.drop p = x :: t := by
  cases hd : bp.drop p with
  | nil =>
    have := List.drop_eq_nil_iff.mp hd
    omega
  | cons y t => exact ⟨y, t, rfl⟩

theorem scanGo_found (bp : List Nat) (ac : Nat) :
    ∀ (pre : List Nat) (post : List Nat) (p : Nat), bp.drop p = pre ++ ac :: post →
      ac ∉ pre → scanGo bp ac (bp.length - p) p = p + pre.length := by
  intro pre
  induction pre with
  | nil =>
    intro post p hdrop _
    have hlt : p < bp.length := by
      by_contra hge
      rw [List.drop_eq_nil_of_le (by omega)] at hdrop
      simp at hdrop
    have hget : bp.getD p 0 = ac := getD_of_drop_cons hdrop
    obtain ⟨fuel, hfuel⟩ : ∃ fuel, bp.length - p = fuel + 1 := ⟨bp.length - p - 1, by omega⟩
    rw [hfuel]
    unfold scanGo
    rw [if_pos hget]
    simp
  | cons x pre ih =>
    intro post p hdrop hmem
    have hlt : p < bp.length := by
      by_contra hge
      rw [List.drop_eq_nil_of_le (by omega)] at hdrop
      simp at hdrop
    have hget : bp.getD p 0 = x := getD_of_drop_cons hdrop
    have hdrop2 : bp.drop (p + 1) = pre ++ ac :: post := drop_succ_of_drop_cons hdrop
    obtain ⟨fuel, hfuel⟩ : ∃ fuel, bp.length - p = fuel + 1 := ⟨bp.length - p - 1, by omega⟩
    rw [hfuel]
    unfold scanGo
    rw [if_neg (by rw [hget]; intro hxe; exact hmem (by simp [hxe]))]
    have hfuel2 : fuel = bp.length - (p + 1) := by omega
    rw [hfuel2, ih post (p + 1) hdrop2 (fun hm => hmem (List.mem_cons_of_mem x hm))]
    simp only [List.length_cons]
    omega

theorem scanGo_not_found (bp : List Nat) (ac : Nat) :
    ∀ (fuel p : Nat), fuel = bp.length - p → ac ∉ bp.drop p →
      scanGo bp ac fuel p = p + fuel := by
  intro fuel
  induction fuel with
  | zero => intro p _ _; simp [scanGo]
  | succ fuel ih =>
    intro p hfuel hmem
    have hlt : p < bp.length := by omega
    obtain ⟨y, t, hyt⟩ := drop_nonempty hlt
    have hget : bp.getD p 0 = y := getD_of_drop_cons hyt
    have hyne : y ≠ ac := by
      intro hc
      exact hmem (by rw [hyt, hc]; exact List.mem_cons_self ac t)
    unfold scanGo
    rw [if_neg (by rw [hget]; exact hyne)]
    have hdrop2 : ac ∉ bp.drop (p + 1) := by
      rw [drop_succ_of_drop_cons hyt]
      intro hm
      exact hmem (by rw [hyt]; exact List.mem_cons_of_mem y hm)
    rw [ih (p + 1) (by omega) hdrop2]
    omega

/-- `take_until` when the delimiter occurs: returns the bytes before the
first occurrence and advances one past it. -/
theorem take_until_found (hs : HashSlice) (ac : Nat) (pre post : List Nat)
    (hlen : hs.len = hs.bp.length) (hp : hs.pos ≤ hs.len)
    (hdrop : hs.bp.drop hs.pos = pre ++ ac :: post) (hmem : ac ∉ pre)
    (hascii : ∀ b ∈ pre, b ≤ 127) :
    hs.take_until ac = (some pre, { hs with pos := hs.pos + pre.length + 1 }) := by
  unfold HashSlice.take_until
  rw [if_neg (by omega)]
  have hscan : scanGo hs.bp ac (hs.len - hs.pos) hs.pos = hs.pos + pre.length := by
    rw [hlen]
    exact scanGo_found hs.bp ac pre post hs.pos hdrop hmem
  simp only [hscan]
  have hslice : (hs.bp.drop hs.pos).take (hs.pos + pre.length - hs.pos) = pre := by
    rw [hdrop]
    have : hs.pos + pre.length - hs.pos = pre.length := by omega
    rw [this, List.take_left]
  rw [hslice, if_pos (utf8Valid_of_ascii hascii)]

/-- `take_until` when the delimiter does not occur: returns everything up
to the end of the string and exhausts the cursor. -/
theorem take_until_not_found (hs : HashSlice) (ac : Nat)
    (hlen : hs.len = hs.bp.length) (hp : hs.pos ≤ hs.len)
    (hmem : ac ∉ hs.bp.drop hs.pos) (hascii : ∀ b ∈ hs.bp.drop hs.pos, b ≤ 127) :
    hs.take_until ac = (some (hs.bp.drop hs.pos), { hs with pos := hs.len + 1 }) := by
  unfold HashSlice.take_until
  rw [if_neg (by omega)]
  have hscan : scanGo hs.bp ac (hs.len - hs.pos) hs.pos = hs.pos + (hs.len - hs.pos) := by
    exact scanGo_not_found hs.bp ac (hs.len - hs.pos) hs.pos (by omega) hmem
  simp only [hscan]
  have hslice : (hs.bp.drop hs.pos).take (hs.pos + (hs.len - hs.pos) - hs.pos) =
      hs.bp.drop hs.pos := by
    have h1 : hs.pos + (hs.len - hs.pos) - hs.pos = hs.len - hs.pos := by omega
    rw [h1]
    have h2 : (hs.bp.drop hs.pos).length = hs.len - hs.pos := by
      rw [List.length_drop, hlen]
    rw [← h2, List.take_length]
  rw [hslice, if_pos (utf8Valid_of_ascii hascii)]
  have : hs.pos + (hs.len - hs.pos) + 1 = hs.len + 1 := by omega
  rw [this]

/-! ## Byte strings -/

/-- Bytes of a Rust string literal (all literals used here are ASCII). -/
def strBytes (s : String) : List Nat := s.data.map Char.toNat

/-! ## The tagged hash value (src/hash.rs) -/

/-- `Hash` of src/hash.rs: one constructor per algorithm, each holding the
canonical encoded string (the `HashV` newtype's contents). -/
inductive Hash where
  | Apr1 (h : List Nat)
  | Bcrypt (h : List Nat)
  | Bsdi (h : List Nat)
  | Md5 (h : List Nat)
  | Sha1 (h : List Nat)
  | Sha256 (h : List Nat)
  | Sha512 (h : List Nat)
  | Unix (h : List Nat)
deriving DecidableEq, Repr

/-- The inner string of a `Hash` (`Deref`/`as_str` of src/hash.rs). -/
def Hash.toBytes : Hash → List Nat
  | .Apr1 h => h
  | .Bcrypt h => h
  | .Bsdi h => h
  | .Md5 h => h
  | .Sha1 h => h
  | .Sha256 h => h
  | .Sha512 h => h
  | .Unix h => h

/-- `HashSetup` of src/lib.rs: optional salt and optional rounds. -/
structure HashSetup where
  salt : Option (List Nat)
  rounds : Option Nat
deriving DecidableEq, Repr

/-- `IntoHashSetup`: a `hash_with` parameter is either a setup struct or an
encoded hash string to be parsed by the variant's parser (src/traits.rs). -/
def into_hash_setup (param : HashSetup ⊕ List Nat)
    (f : List Nat → Except Error HashSetup) : Except Error HashSetup :=
  match param with
  | .inl s => .ok s
  | .inr str => f str

/-! ### Per-variant length constants -/

/-- `crypt::unix::HASH_LENGTH` (src/crypt/unix.rs line 52): salt 2 + checksum 11. -/
def unixHASH_LENGTH : Nat := 2 + 11

/-- `crypt::bsdi::HASH_LENGTH` (src/crypt/bsdi.rs line 59): `_` + rounds 4 + salt 4 + checksum 11. -/
def bsdiHASH_LENGTH : Nat := 1 + 4 + 4 + 11

/-- `crypt::apr1` magic `$apr1$` (src/crypt/apr1.rs line 55). -/
def APR1_MAGIC : List Nat := strBytes "$apr1$"

/-- `crypt::apr1::HASH_LENGTH_MIN` (src/crypt/apr1.rs line 59). -/
def apr1HASH_LENGTH_MIN : Nat := APR1_MAGIC.length + 0 + 1 + 22

/-- `crypt::apr1::HASH_LENGTH_MAX` (src/crypt/apr1.rs line 60). -/
def apr1HASH_LENGTH_MAX : Nat := APR1_MAGIC.length + 8 + 1 + 22

/-- Md5 magic `$1$` (spec §6; crypt/md5.rs is absent from src/). -/
def MD5_MAGIC : List Nat := strBytes "$1$"

/-- Modelled from the spec: `crypt::md5::HASH_LENGTH` (crypt/md5.rs absent).
Spec §3/§6: `$1$` + salt 0..8 + `$` + checksum 22. -/
def md5HASH_LENGTH_MIN : Nat := 3 + 0 + 1 + 22

/-- Modelled from the spec: upper end of `crypt::md5::HASH_LENGTH`. -/
def md5HASH_LENGTH_MAX : Nat := 3 + 8 + 1 + 22

/-- Modelled from the spec: `crypt::bcrypt::HASH_LENGTH` (crypt/bcrypt.rs
absent). Spec §6: `$2[aby]$` + cost 2 + `$` + salt 22 + checksum 31. -/
def bcryptHASH_LENGTH : Nat := 4 + 2 + 1 + 22 + 31

/-- Modelled from the spec: `crypt::sha256::HASH_LENGTH` range (crypt/sha256.rs
absent). Spec §6: `$5$` + optional `rounds=N$` + salt 0..16 + `$` + checksum 43;
no claim's theorem depends on the exact bounds. -/
def sha256HASH_LENGTH_MIN : Nat := 3 + 0 + 1 + 43

/-- Modelled from the spec: upper end for sha256. -/
def sha256HASH_LENGTH_MAX : Nat := 3 + 17 + 16 + 1 + 43

/-- Modelled from the spec: `crypt::sha512::HASH_LENGTH` range (crypt/sha512.rs
absent); checksum 86 per spec §3. -/
def sha512HASH_LENGTH_MIN : Nat := 3 + 0 + 1 + 86

/-- Modelled from the spec: upper end for sha512. -/
def sha512HASH_LENGTH_MAX : Nat := 3 + 17 + 16 + 1 + 86

/-- Modelled from the spec: `crypt::sha1::HASH_LENGTH` range (crypt/sha1.rs
absent; spec §9 leaves the `$sha1$` layout open). Chosen to cover the spec's
example vector; no claim's theorem depends on it. -/
def sha1HASH_LENGTH_MIN : Nat := 6 + 1 + 1 + 1 + 28

/-- Modelled from the spec: upper end for sha1. -/
def sha1HASH_LENGTH_MAX : Nat := 6 + 10 + 1 + 64 + 1 + 28

/-! ### The recognizer (`TryFrom<&str> for Hash`, src/hash.rs lines 186-231) -/

/-- `gatel` (src/hash.rs lines 186-191): exact-length gate. -/
def gatel (s : List Nat) (size : Nat) : Except Error (List Nat) :=
  if s.length = size then .ok s else .error .InsufficientLength

/-- `gater` (src/hash.rs lines 193-199): length-range gate (inclusive). -/
def gater (s : List Nat) (lo hi : Nat) : Except Error (List Nat) :=
  if lo ≤ s.length ∧ s.length ≤ hi then .ok s else .error .InsufficientLength

/-- `TryFrom<&str> for Hash` (src/hash.rs lines 201-231): recognize the
algorithm from the string's leading bytes and length. `[88]` is `"X"`,
the `unwrap_or` placeholder of the source. -/
def tryFromStr (value : List Nat) : Except Error Hash :=
  let hs := HashSlice.new value
  let (t1, hs1) := hs.take 1
  let tok := t1.getD [88]
  if tok = strBytes "_" then (gatel value bsdiHASH_LENGTH).map Hash.Bsdi
  else if tok = strBytes "$" then
    let tok2 := (hs1.take_until 36).1.getD [88]
    if tok2 = strBytes "1" then (gater value md5HASH_LENGTH_MIN md5HASH_LENGTH_MAX).map Hash.Md5
    else if tok2 = strBytes "apr1" then
      (gater value apr1HASH_LENGTH_MIN apr1HASH_LENGTH_MAX).map Hash.Apr1
    else if tok2 = strBytes "2a" ∨ tok2 = strBytes "2b" ∨ tok2 = strBytes "2y" then
      (gatel value bcryptHASH_LENGTH).map Hash.Bcrypt
    else if tok2 = strBytes "sha1" then
      (gater value sha1HASH_LENGTH_MIN sha1HASH_LENGTH_MAX).map Hash.Sha1
    else if tok2 = strBytes "5" then
      (gater value sha256HASH_LENGTH_MIN sha256HASH_LENGTH_MAX).map Hash.Sha256
    else if tok2 = strBytes "6" then
      (gater value sha512HASH_LENGTH_MIN sha512HASH_LENGTH_MAX).map Hash.Sha512
    else .error .InvalidHashString
  else if value.length = unixHASH_LENGTH then .ok (Hash.Unix value)
  else .error .InvalidHashString

/-! ## The numeric radix codec and the salt generator

`encode_val`/`decode_val` and `bcrypt_hash64_encode` live in encode.rs,
which is absent from src/; they are modelled from spec §4.1. -/

/-- Modelled from the spec: `encode_val` of the absent encode.rs — an
unsigned integer rendered as a fixed-width string of the radix-64
alphabet, most-significant digit first, over `w` digits (spec §4.1). -/
def encode_val (n w : Nat) : List Nat :=
  (List.range w).map fun i => alphaChar (n / 64 ^ (w - 1 - i) % 64)

/-- Digit-folding loop of `decode_val`. -/
def decode_digits : List Nat → Nat → Except Error Nat
  | [], acc => .ok acc
  | c :: r, acc =>
    match alphaIdx c with
    | some d => decode_digits r (acc * 64 + d)
    | none => .error .EncodingError

/-- Modelled from the spec: `decode_val` of the absent encode.rs — decode a
fixed-width radix-64 integer, rejecting strings of the wrong width, strings
containing non-alphabet characters, and overflow beyond the representable
(u32) range (spec §4.1). -/
def decode_val (s : List Nat) (w : Nat) : Except Error Nat :=
  if s.length = w then
    match decode_digits s 0 with
    | .ok v => if v < 2 ^ 32 then .ok v else .error .EncodingError
    | .error e => .error e
  else .error .InsufficientLength

theorem encode_val_length (n w : Nat) : (encode_val n w).length = w := by
  unfold encode_val
  rw [List.length_map, List.length_range]

theorem encode_val_ascii (n w : Nat) : ∀ b ∈ encode_val n w, b ≤ 127 := by
  intro b hb
  unfold encode_val at hb
  obtain ⟨i, _, heq⟩ := List.mem_map.mp hb
  rw [← heq]
  exact alphaChar_lt _ (Nat.mod_lt _ (by omega))

theorem encode_val_inAlpha (n w : Nat) : (encode_val n w).all inAlpha = true := by
  rw [List.all_eq_true]
  intro b hb
  obtain ⟨i, _, heq⟩ := List.mem_map.mp hb
  rw [← heq]
  unfold inAlpha
  rw [alphaIdx_alphaChar _ (Nat.mod_lt _ (by omega))]
  rfl

/-- Explicit form of a 4-digit encode. -/
theorem encode_val_four (n : Nat) :
    encode_val n 4 = [alphaChar (n / 64 ^ 3 % 64), alphaChar (n / 64 ^ 2 % 64),
      alphaChar (n / 64 % 64), alphaChar (n % 64)] := by
  have hr : List.range 4 = [0, 1, 2, 3] := by decide
  unfold encode_val
  rw [hr]
  norm_num

/-- `decode_val` inverts a 4-digit `encode_val` for all `n < 64^4 = 2^24`. -/
theorem decode_encode_val_four (n : Nat) (h : n < 64 ^ 4) :
    decode_val (encode_val n 4) 4 = .ok n := by
  have h3 : n / 64 ^ 3 < 64 := by
    apply Nat.div_lt_of_lt_mul
    calc n < 64 ^ 4 := h
    _ = 64 ^ 3 * 64 := by ring
  have e3 : n / 64 ^ 3 % 64 = n / 64 ^ 3 := Nat.mod_eq_of_lt h3
  have d32 : n / 64 ^ 2 / 64 = n / 64 ^ 3 := by
    rw [Nat.div_div_eq_div_mul]; ring_nf
  have d21 : n / 64 / 64 = n / 64 ^ 2 := by
    rw [Nat.div_div_eq_div_mul]; ring_nf
  have acc2 : n / 64 ^ 3 * 64 + n / 64 ^ 2 % 64 = n / 64 ^ 2 := by
    have := Nat.div_add_mod (n / 64 ^ 2) 64
    omega
  have acc1 : n / 64 ^ 2 * 64 + n / 64 % 64 = n / 64 := by
    have := Nat.div_add_mod (n / 64) 64
    omega
  have acc0 : n / 64 * 64 + n % 64 = n := by
    have := Nat.div_add_mod n 64
    omega
  have i3 := alphaIdx_alphaChar (n / 64 ^ 3 % 64) (Nat.mod_lt _ (by omega))
  have i2 := alphaIdx_alphaChar (n / 64 ^ 2 % 64) (Nat.mod_lt _ (by omega))
  have i1 := alphaIdx_alphaChar (n / 64 % 64) (Nat.mod_lt _ (by omega))
  have i0 := alphaIdx_alphaChar (n % 64) (Nat.mod_lt _ (by omega))
  unfold decode_val
  rw [if_pos (encode_val_length n 4), encode_val_four]
  simp only [decode_digits, i3, i2, i1, i0]
  rw [Nat.zero_mul, Nat.zero_add, e3, acc2, acc1, acc0]
  rw [if_pos (by omega)]

/-- Modelled from the spec: `bcrypt_hash64_encode` of the absent encode.rs —
the RadixCodec byte encoder: 24-bit groups, 6 bits per character,
least-significant bits first (spec §4.1); a trailing group of 1 or 2 bytes
yields 2 or 3 characters. -/
def bcrypt_hash64_encode : List Nat → List Nat
  | [] => []
  | [b0] =>
    let w := b0
    [alphaChar (w % 64), alphaChar (w / 64 % 64)]
  | [b0, b1] =>
    let w := b0 + 256 * b1
    [alphaChar (w % 64), alphaChar (w / 64 % 64), alphaChar (w / 4096 % 64)]
  | b0 :: b1 :: b2 :: rest =>
    let w := b0 + 256 * b1 + 65536 * b2
    alphaChar (w % 64) :: alphaChar (w / 64 % 64) :: alphaChar (w / 4096 % 64) ::
      alphaChar (w / 262144 % 64) :: bcrypt_hash64_encode rest

theorem bcrypt_hash64_encode_length :
    ∀ l : List Nat, (bcrypt_hash64_encode l).length = (4 * l.length + 2) / 3
  | [] => by simp [bcrypt_hash64_encode]
  | [_] => by simp [bcrypt_hash64_encode]
  | [_, _] => by simp [bcrypt_hash64_encode]
  | b0 :: b1 :: b2 :: rest => by
    show (bcrypt_hash64_encode (b0 :: b1 :: b2 :: rest)).length =
      (4 * (b0 :: b1 :: b2 :: rest).length + 2) / 3
    unfold bcrypt_hash64_encode
    simp only [List.length_cons, bcrypt_hash64_encode_length rest]
    omega

theorem bcrypt_hash64_encode_ascii :
    ∀ l : List Nat, ∀ b ∈ bcrypt_hash64_encode l, b ≤ 127
  | [] => by intro b hb; simp [bcrypt_hash64_encode] at hb
  | [b0] => by
    intro b hb
    unfold bcrypt_hash64_encode at hb
    simp only [List.mem_cons, List.not_mem_nil, or_false] at hb
    rcases hb with h | h <;> (rw [h]; exact alphaChar_lt _ (Nat.mod_lt _ (by omega)))
  | [b0, b1] => by
    intro b hb
    unfold bcrypt_hash64_encode at hb
    simp only [List.mem_cons, List.not_mem_nil, or_false] at hb
    rcases hb with h | h | h <;> (rw [h]; exact alphaChar_lt _ (Nat.mod_lt _ (by omega)))
  | b0 :: b1 :: b2 :: rest => by
    intro b hb
    unfold bcrypt_hash64_encode at hb
    simp only [List.mem_cons] at hb
    rcases hb with h | h | h | h | h
    · rw [h]; exact alphaChar_lt _ (Nat.mod_lt _ (by omega))
    · rw [h]; exact alphaChar_lt _ (Nat.mod_lt _ (by omega))
    · rw [h]; exact alphaChar_lt _ (Nat.mod_lt _ (by omega))
    · rw [h]; exact alphaChar_lt _ (Nat.mod_lt _ (by omega))
    · exact bcrypt_hash64_encode_ascii rest b h

/-- The `while sstr.len() > chars {{ sstr.pop(); }}` loop of
`gen_salt_str` (src/random.rs lines 13-15), with fuel `s.length`. -/
def truncGo (chars : Nat) : Nat → List Nat → List Nat
  | 0, s => s
  | fuel + 1, s => if chars < s.length then truncGo chars fuel s.dropLast else s

/-- `gen_salt_str` (src/random.rs lines 5-17): draw `chars.div_ceil(4) * 3`
random bytes, radix-64-encode them, and pop trailing characters until the
string is `chars` long. The random source is the byte stream `rand`. -/
def gen_salt_str (chars : Nat) (rand : Nat → Nat) : List Nat :=
  let bytes := (chars + 3) / 4 * 3
  let rv := (List.range bytes).map fun i => rand i % 256
  let sstr := bcrypt_hash64_encode rv
  truncGo chars sstr.length sstr

theorem truncGo_length (chars : Nat) :
    ∀ (fuel : Nat) (s : List Nat), s.length ≤ fuel →
      (truncGo chars fuel s).length = min chars s.length := by
  intro fuel
  induction fuel with
  | zero =>
    intro s hs
    have : s.length = 0 := by omega
    simp [truncGo, this]
  | succ fuel ih =>
    intro s hs
    unfold truncGo
    by_cases h : chars < s.length
    · rw [if_pos h, ih s.dropLast (by rw [List.length_dropLast]; omega),
        List.length_dropLast]
      omega
    · rw [if_neg h]
      omega

theorem gen_salt_str_length (chars : Nat) (rand : Nat → Nat) :
    (gen_salt_str chars rand).length = chars := by
  unfold gen_salt_str
  simp only
  rw [truncGo_length _ _ _ (le_refl _), bcrypt_hash64_encode_length,
    List.length_map, List.length_range]
  omega

theorem gen_salt_str_ascii (chars : Nat) (rand : Nat → Nat) :
    ∀ b ∈ gen_salt_str chars rand, b ≤ 127 := by
  intro b hb
  unfold gen_salt_str at hb
  simp only at hb
  have hmem : ∀ (fuel : Nat) (s : List Nat) (x : Nat),
      x ∈ truncGo chars fuel s → x ∈ s := by
    intro fuel
    induction fuel with
    | zero => intro s x hx; exact hx
    | succ fuel ih =>
      intro s x hx
      unfold truncGo at hx
      by_cases h : chars < s.length
      · rw [if_pos h] at hx
        exact List.dropLast_subset s (ih _ _ hx)
      · rwa [if_neg h] at hx
  exact bcrypt_hash64_encode_ascii _ b (hmem _ _ _ hb)

/-! ## Decimal rounds codec (spec §6, sha/bcrypt rounds fields)

The sha-crypt `rounds=N` token and the bcrypt cost are decimal; the
emitting/parsing code lives in the absent crypt/sha*.rs and
crypt/bcrypt.rs, modelled here from spec §6. -/

/-- Decimal digit emitter, most-significant first; fuel `≥ n` suffices. -/
def decDigitsGo : Nat → Nat → List Nat → List Nat
  | 0, n, acc => (48 + n % 10) :: acc
  | fuel + 1, n, acc =>
    if n < 10 then (48 + n) :: acc
    else decDigitsGo fuel (n / 10) ((48 + n % 10) :: acc)

/-- Decimal rendering of `n` (ASCII, no leading zeros, `0` for zero). -/
def decEnc (n : Nat) : List Nat := decDigitsGo n n []

/-- Decimal parsing loop: rejects any non-digit byte. -/
def decParseGo : List Nat → Nat → Except Error Nat
  | [], acc => .ok acc
  | c :: r, acc =>
    if 48 ≤ c ∧ c ≤ 57 then decParseGo r (acc * 10 + (c - 48))
    else .error .InvalidHashString

/-- Decimal parsing of a rounds/cost field: empty or non-digit input is a
structural mismatch. -/
def decParse (s : List Nat) : Except Error Nat :=
  match s with
  | [] => .error .InvalidHashString
  | _ => decParseGo s 0

/-- Number of digits the emitter produces (same recursion). -/
def decLenGo : Nat → Nat → Nat
  | 0, _ => 1
  | fuel + 1, n => if n < 10 then 1 else decLenGo fuel (n / 10) + 1

theorem decDigitsGo_digits :
    ∀ (fuel n : Nat) (acc : List Nat), (∀ c ∈ acc, 48 ≤ c ∧ c ≤ 57) →
      ∀ c ∈ decDigitsGo fuel n acc, 48 ≤ c ∧ c ≤ 57 := by
  intro fuel
  induction fuel with
  | zero =>
    intro n acc hacc c hc
    unfold decDigitsGo at hc
    rcases List.mem_cons.mp hc with h | h
    · have : n % 10 < 10 := Nat.mod_lt _ (by omega)
      omega
    · exact hacc c h
  | succ fuel ih =>
    intro n acc hacc c hc
    unfold decDigitsGo at hc
    by_cases hn : n < 10
    · rw [if_pos hn] at hc
      rcases List.mem_cons.mp hc with h | h
      · omega
      · exact hacc c h
    · rw [if_neg hn] at hc
      refine ih (n / 10) _ ?_ c hc
      intro x hx
      rcases List.mem_cons.mp hx with h | h
      · have : n % 10 < 10 := Nat.mod_lt _ (by omega)
        omega
      · exact hacc x h

theorem decEnc_digits (n : Nat) : ∀ c ∈ decEnc n, 48 ≤ c ∧ c ≤ 57 :=
  decDigitsGo_digits n n [] (by intro c hc; simp at hc)

theorem decDigitsGo_ne_nil : ∀ (fuel n : Nat) (acc : List Nat),
    decDigitsGo fuel n acc ≠ [] := by
  intro fuel
  induction fuel with
  | zero => intro n acc; unfold decDigitsGo; simp
  | succ fuel ih =>
    intro n acc
    unfold decDigitsGo
    by_cases hn : n < 10
    · rw [if_pos hn]; simp
    · rw [if_neg hn]; exact ih (n / 10) _

theorem decParseGo_nil (a : Nat) : decParseGo [] a = .ok a := rfl

theorem decParseGo_cons (c : Nat) (r : List Nat) (a : Nat) :
    decParseGo (c :: r) a =
      if 48 ≤ c ∧ c ≤ 57 then decParseGo r (a * 10 + (c - 48))
      else .error .InvalidHashString := rfl

theorem decDigitsGo_succ (fuel n : Nat) (acc : List Nat) :
    decDigitsGo (fuel + 1) n acc =
      if n < 10 then (48 + n) :: acc
      else decDigitsGo fuel (n / 10) ((48 + n % 10) :: acc) := rfl

theorem decLenGo_succ (fuel n : Nat) :
    decLenGo (fuel + 1) n = if n < 10 then 1 else decLenGo fuel (n / 10) + 1 := rfl

theorem decParseGo_decDigitsGo :
    ∀ (fuel n : Nat) (acc : List Nat) (a : Nat), n ≤ fuel →
      decParseGo (decDigitsGo fuel n acc) a =
        decParseGo acc (a * 10 ^ decLenGo fuel n + n) := by
  intro fuel
  induction fuel with
  | zero =>
    intro n acc a hn
    have hn0 : n = 0 := by omega
    subst hn0
    show decParseGo ((48 + 0 % 10) :: acc) a = decParseGo acc (a * 10 ^ decLenGo 0 0 + 0)
    rw [decParseGo_cons, if_pos (by omega)]
    norm_num [decLenGo]
  | succ fuel ih =>
    intro n acc a hn
    rw [decDigitsGo_succ, decLenGo_succ]
    by_cases h10 : n < 10
    · rw [if_pos h10, if_pos h10, decParseGo_cons, if_pos (by omega)]
      congr 1
      rw [pow_one]
      omega
    · rw [if_neg h10, if_neg h10]
      have hle : n / 10 ≤ fuel := by
        have : n / 10 < n := Nat.div_lt_self (by omega) (by omega)
        omega
      rw [ih (n / 10) _ a hle, decParseGo_cons,
        if_pos (by have := Nat.mod_lt n (show 0 < 10 by omega); omega)]
      congr 1
      have hsub : 48 + n % 10 - 48 = n % 10 := by omega
      rw [hsub, pow_succ, ← mul_assoc]
      generalize a * 10 ^ decLenGo fuel (n / 10) = K
      omega

/-- `decParse` inverts `decEnc`. -/
theorem decParse_decEnc (n : Nat) : decParse (decEnc n) = .ok n := by
  obtain ⟨c, r, hcr⟩ : ∃ c r, decEnc n = c :: r := by
    cases h : decEnc n with
    | nil => exact absurd h (decDigitsGo_ne_nil n n [])
    | cons c r => exact ⟨c, r, rfl⟩
  have h1 : decParse (decEnc n) = decParseGo (decEnc n) 0 := by
    rw [hcr]
    rfl
  rw [h1]
  unfold decEnc
  rw [decParseGo_decDigitsGo n n [] 0 (le_refl n), decParseGo_nil]
  simp

/-! ## The opaque digest engines (spec §1, §4.3)

The bit-level transforms live outside the excerpt (internal/des.rs,
crypt/md5.rs digest loop, ...). Each engine is modelled from the spec as:
validate the salt against the radix-64 alphabet (`EncodingError` on
violation, spec §4.3/§7; too-short salt is `InsufficientLength`), apply the
opaque digest `cs` (an explicit parameter: the theorems hold for every
digest), and assemble the canonical string of spec §6. -/

/-- Modelled from the spec: `do_md5_crypt` of the absent crypt/md5.rs —
assembles `magic ++ salt ++ "$" ++ checksum` (spec §6) after validating the
salt alphabet. -/
def do_md5_crypt (cs : List Nat → List Nat → List Nat)
    (pass salt magic : List Nat) : Except Error (List Nat) :=
  if salt.all inAlpha then .ok (magic ++ salt ++ [36] ++ cs pass salt)
  else .error .EncodingError

/-- Modelled from the spec: `unix_crypt` of the absent internal/des.rs —
salt must offer 2 alphabet characters (src/crypt/unix.rs tests: a 1-char
salt is `InsufficientLength`, a non-alphabet salt is `EncodingError`);
output is `{salt:2}{checksum:11}` (spec §6). -/
def unix_crypt (cs : List Nat → List Nat → List Nat)
    (pass salt : List Nat) : Except Error (List Nat) :=
  if salt.length < 2 then .error .InsufficientLength
  else if (salt.take 2).all inAlpha then .ok (salt.take 2 ++ cs pass (salt.take 2))
  else .error .EncodingError

/-- Modelled from the spec: `bsdi_crypt` of the absent internal/des.rs —
salt must offer 4 alphabet characters (over-long salt truncated, spec §3);
output is `_{rounds:4}{salt:4}{checksum:11}` (spec §6). -/
def bsdi_crypt (cs : List Nat → List Nat → Nat → List Nat)
    (pass salt : List Nat) (rounds : Nat) : Except Error (List Nat) :=
  if salt.length < 4 then .error .InsufficientLength
  else if (salt.take 4).all inAlpha then
    .ok (strBytes "_" ++ encode_val rounds 4 ++ salt.take 4 ++
      cs pass (salt.take 4) rounds)
  else .error .EncodingError

/-! ## `consteq` and the md5-family framing (src/lib.rs, src/crypt/apr1.rs) -/

/-- `consteq` (src/lib.rs lines 77-83): an errored recomputation is a
non-match; otherwise compare the candidate with the canonical string. -/
def consteq (hash : List Nat) (calchash : Except Error Hash) : Bool :=
  match calchash with
  | .ok hstr => decide (hash = hstr.toBytes)
  | .error _ => false

/-- `MAX_SALT_LEN` of src/crypt/apr1.rs line 64. -/
def MAX_SALT_LEN : Nat := 8

/-- `parse_md5_hash` (src/crypt/apr1.rs lines 77-87), generic in the magic
(the md5 module differs from apr1 only in the magic, spec §4.3). -/
def parse_md5c_hash (magic hash : List Nat) : Except Error HashSetup :=
  let hs0 := HashSlice.new hash
  let (t, hs1) := hs0.take magic.length
  if t.getD [88] ≠ magic then .error .InvalidHashString
  else
    match (hs1.take_until 36).1 with
    | some salt => .ok ⟨some salt, none⟩
    | none => .error .InvalidHashString

/-- `hash_with` of src/crypt/apr1.rs lines 96-112, generic in the magic:
resolve the parameter, truncate an over-long salt to `MAX_SALT_LEN` through
a fresh cursor, generate a salt when none is given, then run the engine. -/
def md5c_hash_with (magic : List Nat) (cs : List Nat → List Nat → List Nat)
    (param : HashSetup ⊕ List Nat) (pass : List Nat) (rand : Nat → Nat) :
    Except Error (List Nat) :=
  match into_hash_setup param (parse_md5c_hash magic) with
  | .error e => .error e
  | .ok hs =>
    match hs.salt with
    | none => do_md5_crypt cs pass (gen_salt_str MAX_SALT_LEN rand) magic
    | some salt =>
      if salt.length ≤ MAX_SALT_LEN then do_md5_crypt cs pass salt magic
      else
        match ((HashSlice.new salt).take MAX_SALT_LEN).1 with
        | some t => do_md5_crypt cs pass t magic
        | none => .error .InvalidHashString

/-- `crypt::apr1::hash_with` (src/crypt/apr1.rs lines 96-112). -/
def apr1_hash_with (cs : List Nat → List Nat → List Nat)
    (param : HashSetup ⊕ List Nat) (pass : List Nat) (rand : Nat → Nat) :
    Except Error Hash :=
  (md5c_hash_with APR1_MAGIC cs param pass rand).map Hash.Apr1

/-- `crypt::apr1::hash` (src/crypt/apr1.rs lines 71-75). -/
def apr1_hash (cs : List Nat → List Nat → List Nat) (pass : List Nat)
    (rand : Nat → Nat) : Except Error Hash :=
  (do_md5_crypt cs pass (gen_salt_str MAX_SALT_LEN rand) APR1_MAGIC).map Hash.Apr1

/-- `crypt::apr1::verify` (src/crypt/apr1.rs lines 116-119). -/
def apr1_verify (cs : List Nat → List Nat → List Nat) (pass hash : List Nat)
    (rand : Nat → Nat) : Bool :=
  consteq hash (apr1_hash_with cs (.inr hash) pass rand)

/-- Modelled from the spec: `crypt::md5::hash_with` (crypt/md5.rs absent) —
identical framing to apr1 with magic `$1$` (spec §4.3, §6). -/
def md5_hash_with (cs : List Nat → List Nat → List Nat)
    (param : HashSetup ⊕ List Nat) (pass : List Nat) (rand : Nat → Nat) :
    Except Error Hash :=
  (md5c_hash_with MD5_MAGIC cs param pass rand).map Hash.Md5

/-- Modelled from the spec: `crypt::md5::hash`. -/
def md5_hash (cs : List Nat → List Nat → List Nat) (pass : List Nat)
    (rand : Nat → Nat) : Except Error Hash :=
  (do_md5_crypt cs pass (gen_salt_str MAX_SALT_LEN rand) MD5_MAGIC).map Hash.Md5

/-- Modelled from the spec: `crypt::md5::verify`. -/
def md5_verify (cs : List Nat → List Nat → List Nat) (pass hash : List Nat)
    (rand : Nat → Nat) : Bool :=
  consteq hash (md5_hash_with cs (.inr hash) pass rand)

/-! ## The BSDi framing (src/crypt/bsdi.rs) -/

/-- `MIN_ROUNDS` (src/crypt/bsdi.rs line 55). -/
def bsdiMIN_ROUNDS : Nat := 1

/-- `MAX_ROUNDS = (1 << 24) - 1` (src/crypt/bsdi.rs line 56). -/
def bsdiMAX_ROUNDS : Nat := 2 ^ 24 - 1

/-- `DEFAULT_ROUNDS` (src/crypt/bsdi.rs line 64). -/
def bsdiDEFAULT_ROUNDS : Nat := 7250

/-- `SALT_LEN` (src/crypt/bsdi.rs line 66). -/
def bsdiSALT_LEN : Nat := 4

/-- `ROUNDS_LEN` (src/crypt/bsdi.rs line 67). -/
def bsdiROUNDS_LEN : Nat := 4

/-- `parse_bsdi_hash` (src/crypt/bsdi.rs lines 82-98). -/
def parse_bsdi_hash (hash : List Nat) : Except Error HashSetup :=
  let hs0 := HashSlice.new hash
  let (t, hs1) := hs0.take 1
  if t.getD [88] ≠ strBytes "_" then .error .InvalidHashString
  else
    match hs1.take bsdiROUNDS_LEN with
    | (none, _) => .error .InvalidHashString
    | (some rstr, hs2) =>
      match decode_val rstr bsdiSALT_LEN with
      | .error e => .error e
      | .ok rounds =>
        match (hs2.take bsdiSALT_LEN).1 with
        | none => .error .InvalidHashString
        | some salt => .ok ⟨some salt, some rounds⟩

/-- `crypt::bsdi::hash_with` (src/crypt/bsdi.rs lines 107-130): explicit
rounds outside `MIN_ROUNDS..=MAX_ROUNDS` are `InvalidRounds`, never
clamped; absent rounds default; absent salt is generated. -/
def bsdi_hash_with (cs : List Nat → List Nat → Nat → List Nat)
    (param : HashSetup ⊕ List Nat) (pass : List Nat) (rand : Nat → Nat) :
    Except Error Hash :=
  match into_hash_setup param parse_bsdi_hash with
  | .error e => .error e
  | .ok hs =>
    match (match hs.rounds with
           | some r =>
             if bsdiMIN_ROUNDS ≤ r ∧ r ≤ bsdiMAX_ROUNDS then Except.ok r
             else Except.error Error.InvalidRounds
           | none => Except.ok bsdiDEFAULT_ROUNDS) with
    | .error e => .error e
    | .ok rounds =>
      match hs.salt with
      | some salt => (bsdi_crypt cs pass salt rounds).map Hash.Bsdi
      | none => (bsdi_crypt cs pass (gen_salt_str bsdiSALT_LEN rand) rounds).map Hash.Bsdi

/-- `crypt::bsdi::hash` (src/crypt/bsdi.rs lines 76-80). -/
def bsdi_hash (cs : List Nat → List Nat → Nat → List Nat) (pass : List Nat)
    (rand : Nat → Nat) : Except Error Hash :=
  (bsdi_crypt cs pass (gen_salt_str bsdiSALT_LEN rand) bsdiDEFAULT_ROUNDS).map Hash.Bsdi

/-- `crypt::bsdi::verify` (src/crypt/bsdi.rs lines 134-137). -/
def bsdi_verify (cs : List Nat → List Nat → Nat → List Nat)
    (pass hash : List Nat) (rand : Nat → Nat) : Bool :=
  consteq hash (bsdi_hash_with cs (.inr hash) pass rand)

/-! ## The UnixDes framing (src/crypt/unix.rs) -/

/-- `crypt::unix::hash_with` (src/crypt/unix.rs lines 71-73): the salt
argument is passed to the engine as-is (a full hash string works, its
first two characters being the salt). -/
def unix_hash_with (cs : List Nat → List Nat → List Nat)
    (salt pass : List Nat) : Except Error Hash :=
  (unix_crypt cs pass salt).map Hash.Unix

/-- `crypt::unix::hash` (src/crypt/unix.rs lines 60-63). -/
def unix_hash (cs : List Nat → List Nat → List Nat) (pass : List Nat)
    (rand : Nat → Nat) : Except Error Hash :=
  (unix_crypt cs pass (gen_salt_str 2 rand)).map Hash.Unix

/-- `crypt::unix::verify` (src/crypt/unix.rs lines 77-82). -/
def unix_verify (cs : List Nat → List Nat → List Nat)
    (pass hash : List Nat) : Bool :=
  consteq hash ((unix_crypt cs pass hash).map Hash.Unix)

/-! ## The sha-crypt framing (spec §3, §4.3, §6)

crypt/sha256.rs and crypt/sha512.rs are absent from src/; the two modules
differ only in magic and checksum width, so the framing is modelled once,
from the spec: format `$5$`/`$6$` + optional `rounds=N$` token + salt 0..16
+ `$` + checksum; rounds range 1000..999,999,999, default 5000; an
over-long salt is an error (the spec's truncation rule covers only
Md5/Apr1/BsdiDes). -/

/-- `rounds=` token bytes. -/
def SHA_ROUNDS_TAG : List Nat := strBytes "rounds="

/-- Modelled from the spec: sha-crypt rounds minimum (spec §3). -/
def shaMIN_ROUNDS : Nat := 1000

/-- Modelled from the spec: sha-crypt rounds maximum (spec §3). -/
def shaMAX_ROUNDS : Nat := 999999999

/-- Modelled from the spec: sha-crypt default rounds (spec §3). -/
def shaDEFAULT_ROUNDS : Nat := 5000

/-- Modelled from the spec: sha-crypt maximum salt length (spec §3). -/
def shaMAX_SALT_LEN : Nat := 16

/-- Modelled from the spec: the sha-crypt engine boundary — validate the
salt alphabet, then assemble `magic ++ [rounds=N$] ++ salt ++ $ ++
checksum`, the `rounds=` token present exactly when rounds were explicit
(spec §6); `cs` is the opaque digest. -/
def do_sha_crypt (magic : List Nat) (cs : List Nat → List Nat → Nat → List Nat)
    (pass salt : List Nat) (ropt : Option Nat) : Except Error (List Nat) :=
  if salt.all inAlpha then
    .ok (magic ++
      (match ropt with
       | some r => SHA_ROUNDS_TAG ++ decEnc r ++ [36]
       | none => []) ++
      salt ++ [36] ++ cs pass salt (ropt.getD shaDEFAULT_ROUNDS))
  else .error .EncodingError

/-- Modelled from the spec: the sha-crypt string parser — expect the magic,
read the first `$`-delimited token; a token starting `rounds=` carries the
decimal rounds and the salt follows, otherwise the token is the salt. -/
def parse_sha_hash (magic hash : List Nat) : Except Error HashSetup :=
  let hs0 := HashSlice.new hash
  let (t, hs1) := hs0.take magic.length
  if t.getD [88] ≠ magic then .error .InvalidHashString
  else
    match hs1.take_until 36 with
    | (none, _) => .error .InvalidHashString
    | (some tok, hs2) =>
      if tok.take SHA_ROUNDS_TAG.length = SHA_ROUNDS_TAG then
        match decParse (tok.drop SHA_ROUNDS_TAG.length) with
        | .error e => .error e
        | .ok r =>
          match (hs2.take_until 36).1 with
          | none => .error .InvalidHashString
          | some salt => .ok ⟨some salt, some r⟩
      else .ok ⟨some tok, none⟩

/-- Modelled from the spec: sha-crypt `hash_with` — validation order of
spec §4.3: parse, validate explicit rounds against the range
(`InvalidRounds`, never clamped), reject an over-long salt
(`InvalidHashString`), generate a salt when absent, run the engine. -/
def sha_hash_with (magic : List Nat) (cs : List Nat → List Nat → Nat → List Nat)
    (mk : List Nat → Hash) (param : HashSetup ⊕ List Nat) (pass : List Nat)
    (rand : Nat → Nat) : Except Error Hash :=
  match into_hash_setup param (parse_sha_hash magic) with
  | .error e => .error e
  | .ok hs =>
    match (match hs.rounds with
           | some r =>
             if shaMIN_ROUNDS ≤ r ∧ r ≤ shaMAX_ROUNDS then Except.ok ()
             else Except.error Error.InvalidRounds
           | none => Except.ok ()) with
    | .error e => .error e
    | .ok _ =>
      match hs.salt with
      | some salt =>
        if salt.length ≤ shaMAX_SALT_LEN then (do_sha_crypt magic cs pass salt hs.rounds).map mk
        else .error .InvalidHashString
      | none => (do_sha_crypt magic cs pass (gen_salt_str shaMAX_SALT_LEN rand) hs.rounds).map mk

/-- `$5$` magic. -/
def SHA256_MAGIC : List Nat := strBytes "$5$"

/-- `$6$` magic. -/
def SHA512_MAGIC : List Nat := strBytes "$6$"

/-- Modelled from the spec: `crypt::sha256::hash_with`. -/
def sha256_hash_with (cs : List Nat → List Nat → Nat → List Nat)
    (param : HashSetup ⊕ List Nat) (pass : List Nat) (rand : Nat → Nat) :
    Except Error Hash :=
  sha_hash_with SHA256_MAGIC cs Hash.Sha256 param pass rand

/-- Modelled from the spec: `crypt::sha256::hash` (default parameters). -/
def sha256_hash (cs : List Nat → List Nat → Nat → List Nat) (pass : List Nat)
    (rand : Nat → Nat) : Except Error Hash :=
  sha_hash_with SHA256_MAGIC cs Hash.Sha256 (.inl ⟨none, none⟩) pass rand

/-- Modelled from the spec: `crypt::sha256::verify` (spec §4.3). -/
def sha256_verify (cs : List Nat → List Nat → Nat → List Nat)
    (pass hash : List Nat) (rand : Nat → Nat) : Bool :=
  consteq hash (sha256_hash_with cs (.inr hash) pass rand)

/-- Modelled from the spec: `crypt::sha512::hash_with`. -/
def sha512_hash_with (cs : List Nat → List Nat → Nat → List Nat)
    (param : HashSetup ⊕ List Nat) (pass : List Nat) (rand : Nat → Nat) :
    Except Error Hash :=
  sha_hash_with SHA512_MAGIC cs Hash.Sha512 param pass rand

/-- Modelled from the spec: `crypt::sha512::hash`. -/
def sha512_hash (cs : List Nat → List Nat → Nat → List Nat) (pass : List Nat)
    (rand : Nat → Nat) : Except Error Hash :=
  sha_hash_with SHA512_MAGIC cs Hash.Sha512 (.inl ⟨none, none⟩) pass rand

/-- Modelled from the spec: `crypt::sha512::verify`. -/
def sha512_verify (cs : List Nat → List Nat → Nat → List Nat)
    (pass hash : List Nat) (rand : Nat → Nat) : Bool :=
  consteq hash (sha512_hash_with cs (.inr hash) pass rand)

/-! ## The bcrypt framing (spec §3, §6)

crypt/bcrypt.rs is absent from src/; modelled from the spec: format
`$2[aby]${cost:2}${salt:22}{checksum:31}`, cost a zero-padded decimal in
4..=31 (default 12), salt fixed at 22 characters. The default variant tag
for setup-struct parameters is `2b`; re-deriving from a string keeps the
parsed tag; no claim's theorem depends on the default. -/

/-- Modelled from the spec: the bcrypt string parser — `$`, a variant tag
in 2a/2b/2y, `$`, decimal cost, `$`, 22 salt characters; checksum ignored.
Returns the variant tag alongside the setup. -/
def parse_bcrypt_hash (hash : List Nat) : Except Error (List Nat × HashSetup) :=
  let hs0 := HashSlice.new hash
  let (t, hs1) := hs0.take 1
  if t.getD [88] ≠ strBytes "$" then .error .InvalidHashString
  else
    match hs1.take_until 36 with
    | (none, _) => .error .InvalidHashString
    | (some v, hs2) =>
      if v = strBytes "2a" ∨ v = strBytes "2b" ∨ v = strBytes "2y" then
        match hs2.take_until 36 with
        | (none, _) => .error .InvalidHashString
        | (some cstr, hs3) =>
          match decParse cstr with
          | .error e => .error e
          | .ok cost =>
            match (hs3.take 22).1 with
            | none => .error .InvalidHashString
            | some salt => .ok (v, ⟨some salt, some cost⟩)
      else .error .InvalidHashString

/-- Modelled from the spec: the bcrypt engine boundary — validate the salt
alphabet and assemble `$tag$cc$salt` + checksum, the cost zero-padded to
two decimal digits (spec §6). -/
def do_bcrypt (cs : List Nat → List Nat → Nat → List Nat → List Nat)
    (pass variant : List Nat) (cost : Nat) (salt : List Nat) :
    Except Error (List Nat) :=
  if salt.all inAlpha then
    .ok ([36] ++ variant ++ [36] ++ [48 + cost / 10, 48 + cost % 10] ++ [36] ++
      salt ++ cs pass variant cost salt)
  else .error .EncodingError

/-- Modelled from the spec: the post-parse stage of bcrypt `hash_with` —
cost outside 4..=31 is `InvalidRounds`; a supplied salt must be exactly 22
characters; an absent salt is generated. -/
def bcrypt_core (cs : List Nat → List Nat → Nat → List Nat → List Nat)
    (variant : List Nat) (hs : HashSetup) (pass : List Nat) (rand : Nat → Nat) :
    Except Error Hash :=
  match (match hs.rounds with
         | some c =>
           if 4 ≤ c ∧ c ≤ 31 then Except.ok c else Except.error Error.InvalidRounds
         | none => Except.ok 12) with
  | .error e => .error e
  | .ok cost =>
    match hs.salt with
    | some salt =>
      if salt.length = 22 then (do_bcrypt cs pass variant cost salt).map Hash.Bcrypt
      else .error .InsufficientLength
    | none => (do_bcrypt cs pass variant cost (gen_salt_str 22 rand)).map Hash.Bcrypt

/-- Modelled from the spec: `crypt::bcrypt::hash_with` — resolve the
parameter (a setup struct carries the default `2b` variant tag; a string
is parsed, keeping its tag), then run the post-parse stage. -/
def bcrypt_hash_with (cs : List Nat → List Nat → Nat → List Nat → List Nat)
    (param : HashSetup ⊕ List Nat) (pass : List Nat) (rand : Nat → Nat) :
    Except Error Hash :=
  match (match param with
         | .inl s => Except.ok (strBytes "2b", s)
         | .inr str => parse_bcrypt_hash str) with
  | .error e => .error e
  | .ok (variant, hs) => bcrypt_core cs variant hs pass rand

/-- Modelled from the spec: `crypt::bcrypt::hash` (default parameters). -/
def bcrypt_hash (cs : List Nat → List Nat → Nat → List Nat → List Nat)
    (pass : List Nat) (rand : Nat → Nat) : Except Error Hash :=
  bcrypt_hash_with cs (.inl ⟨none, none⟩) pass rand

/-- Modelled from the spec: `crypt::bcrypt::verify` (spec §4.3). -/
def bcrypt_verify (cs : List Nat → List Nat → Nat → List Nat → List Nat)
    (pass hash : List Nat) (rand : Nat → Nat) : Bool :=
  consteq hash (bcrypt_hash_with cs (.inr hash) pass rand)

/-! ## `Hash::hash_with` and `Hash::verify` (src/hash.rs lines 48-93)

The dispatchers take the opaque digests of the embedded variants plus one
abstract function for the sha1 module, whose layout the spec leaves open
(§9); per spec §4.3 its `verify` is the same `consteq` wrapper. -/

/-- Bundle of the opaque digest engines handed to the dispatchers. -/
structure Engines where
  md5 : List Nat → List Nat → List Nat
  bsdi : List Nat → List Nat → Nat → List Nat
  unix : List Nat → List Nat → List Nat
  sha256 : List Nat → List Nat → Nat → List Nat
  sha512 : List Nat → List Nat → Nat → List Nat
  bcrypt : List Nat → List Nat → Nat → List Nat → List Nat
  sha1f : List Nat → List Nat → Except Error Hash

/-- `Hash::hash_with` (src/hash.rs lines 50-70): re-derive with the same
variant, passing the stored canonical string as the parameter. -/
def Hash.hash_with (en : Engines) (h : Hash) (pass : List Nat)
    (rand : Nat → Nat) : Except Error Hash :=
  match h with
  | .Apr1 s => apr1_hash_with en.md5 (.inr s) pass rand
  | .Bcrypt s => bcrypt_hash_with en.bcrypt (.inr s) pass rand
  | .Bsdi s => bsdi_hash_with en.bsdi (.inr s) pass rand
  | .Md5 s => md5_hash_with en.md5 (.inr s) pass rand
  | .Sha1 s => en.sha1f s pass
  | .Sha256 s => sha256_hash_with en.sha256 (.inr s) pass rand
  | .Sha512 s => sha512_hash_with en.sha512 (.inr s) pass rand
  | .Unix s => unix_hash_with en.unix s pass

/-- `Hash::verify` (src/hash.rs lines 73-92): dispatch to the variant's
`verify`. -/
def Hash.verify (en : Engines) (h : Hash) (pass : List Nat)
    (rand : Nat → Nat) : Bool :=
  match h with
  | .Apr1 s => apr1_verify en.md5 pass s rand
  | .Bcrypt s => bcrypt_verify en.bcrypt pass s rand
  | .Bsdi s => bsdi_verify en.bsdi pass s rand
  | .Md5 s => md5_verify en.md5 pass s rand
  | .Sha1 s => consteq s (en.sha1f s pass)
  | .Sha256 s => sha256_verify en.sha256 pass s rand
  | .Sha512 s => sha512_verify en.sha512 pass s rand
  | .Unix s => unix_verify en.unix pass s

/-- `unix::crypt` (src/lib.rs lines 123-125): recognize, then re-derive. -/
def unixmod_crypt (en : Engines) (pass hash : List Nat) (rand : Nat → Nat) :
    Except Error Hash :=
  match tryFromStr hash with
  | .error e => .error e
  | .ok h => h.hash_with en pass rand

/-- `unix::verify` (src/lib.rs lines 128-130). -/
def unixmod_verify (en : Engines) (pass hash : List Nat) (rand : Nat → Nat) :
    Bool :=
  consteq hash (unixmod_crypt en pass hash rand)

/-! ## Round-trip machinery -/

theorem all_inAlpha_ascii {s : List Nat} (h : s.all inAlpha = true) :
    ∀ b ∈ s, b ≤ 127 :=
  fun b hb => inAlpha_ascii (List.all_eq_true.mp h b hb)

theorem all_inAlpha_not_mem {s : List Nat} (h : s.all inAlpha = true) {x : Nat}
    (hx : inAlpha x = false) : x ∉ s := by
  intro hmem
  rw [List.all_eq_true.mp h x hmem] at hx
  simp at hx

theorem exceptMap_ok_iff {α β : Type} (f : α → β) (x : Except Error α) (y : β) :
    x.map f = .ok y ↔ ∃ z, x = .ok z ∧ y = f z := by
  cases x <;> simp [Except.map, eq_comm]

/-- `take` at a cursor standing after `pre`, with `a ++ rest` remaining. -/
theorem take_mid (l pre a rest : List Nat) (p : Nat) (hp : p = pre.length)
    (hl : l = pre ++ (a ++ rest)) (hascii : ∀ x ∈ a, x ≤ 127)
    (n : Nat) (hn : n = a.length) :
    (⟨l, l.length, p⟩ : HashSlice).take n =
      (some a, ⟨l, l.length, p + n + (if p + n = l.length then 1 else 0)⟩) := by
  have hlen : l.length = pre.length + (a.length + rest.length) := by
    rw [hl]; simp [List.length_append]
  have havail : (⟨l, l.length, p⟩ : HashSlice).pos + n ≤ (⟨l, l.length, p⟩ : HashSlice).len := by
    simp only
    omega
  rw [take_of_avail _ _ havail]
  have hdrop : l.drop p = a ++ rest := by
    rw [hl, hp]
    exact List.drop_left pre (a ++ rest)
  have hslice : (l.drop p).take n = a := by
    rw [hdrop, hn]
    exact List.take_left a rest
  simp only [hslice]
  rw [if_pos (utf8Valid_of_ascii hascii)]

/-- `take_until` at a cursor standing after `pre`, with `a ++ ac :: rest`
remaining and `ac` not in `a`. -/
theorem take_until_mid (l pre a rest : List Nat) (ac : Nat) (p : Nat)
    (hp : p = pre.length) (hl : l = pre ++ (a ++ (ac :: rest)))
    (hmem : ac ∉ a) (hascii : ∀ x ∈ a, x ≤ 127) :
    (⟨l, l.length, p⟩ : HashSlice).take_until ac =
      (some a, ⟨l, l.length, p + a.length + 1⟩) := by
  have hlen : l.length = pre.length + (a.length + (1 + rest.length)) := by
    rw [hl]; simp only [List.length_append, List.length_cons, List.length_nil]; omega
  have hdrop : l.drop p = a ++ ac :: rest := by
    rw [hl, hp]
    exact List.drop_left pre (a ++ ac :: rest)
  exact take_until_found ⟨l, l.length, p⟩ ac a rest rfl (by simp only; omega) hdrop hmem hascii

theorem consteq_error (hash : List Nat) (e : Error) :
    consteq hash (.error e) = false := rfl

theorem consteq_ok (hash : List Nat) (h : Hash) :
    consteq hash (.ok h) = decide (hash = h.toBytes) := rfl

/-! ### The md5 family (apr1 / md5) -/

theorem APR1_MAGIC_ascii : ∀ b ∈ APR1_MAGIC, b ≤ 127 := by decide

theorem MD5_MAGIC_ascii : ∀ b ∈ MD5_MAGIC, b ≤ 127 := by decide

/-- Parsing an assembled md5-family string recovers exactly the salt. -/
theorem parse_md5c_of_form (magic s c : List Nat)
    (hmagic : ∀ b ∈ magic, b ≤ 127) (hsalpha : s.all inAlpha = true) :
    parse_md5c_hash magic (magic ++ s ++ [36] ++ c) = .ok ⟨some s, none⟩ := by
  have hre : magic ++ s ++ [36] ++ c = magic ++ (s ++ (36 :: c)) := by
    simp [List.append_assoc]
  set l := magic ++ s ++ [36] ++ c with hldef
  have hlen : l.length = magic.length + (s.length + (1 + c.length)) := by
    rw [hldef]; simp only [List.length_append, List.length_cons, List.length_nil]; omega
  have htake : (⟨l, l.length, 0⟩ : HashSlice).take magic.length =
      (some magic, ⟨l, l.length, 0 + magic.length +
        (if 0 + magic.length = l.length then 1 else 0)⟩) :=
    take_mid l [] magic (s ++ (36 :: c)) 0 rfl (by rw [hre]; rfl) hmagic magic.length rfl
  rw [if_neg (by omega)] at htake
  have htu : (⟨l, l.length, 0 + magic.length + 0⟩ : HashSlice).take_until 36 =
      (some s, ⟨l, l.length, 0 + magic.length + 0 + s.length + 1⟩) :=
    take_until_mid l magic s c 36 (0 + magic.length + 0) (by omega)
      (by rw [hre]) (all_inAlpha_not_mem hsalpha inAlpha_dollar) (all_inAlpha_ascii hsalpha)
  unfold parse_md5c_hash
  simp only [HashSlice.new, htake, htu, Option.getD_some, ne_eq, not_true_eq_false,
    if_false, ite_false]

/-- Re-deriving from an assembled md5-family string with a short-enough
salt runs the engine on exactly that salt. -/
theorem md5c_rederive (magic cs pass rand) (s c : List Nat)
    (hmagic : ∀ b ∈ magic, b ≤ 127) (hsalpha : s.all inAlpha = true)
    (hslen : s.length ≤ MAX_SALT_LEN) :
    md5c_hash_with magic cs (.inr (magic ++ s ++ [36] ++ c)) pass rand =
      do_md5_crypt cs pass s magic := by
  unfold md5c_hash_with into_hash_setup
  simp only []
  rw [parse_md5c_of_form magic s c hmagic hsalpha]
  simp only []
  rw [if_pos hslen]

/-- Every string an md5-family `hash_with` can produce has the canonical
form, with a valid salt of at most `MAX_SALT_LEN` characters. -/
theorem md5c_produced (magic cs param pass rand) (out : List Nat)
    (h : md5c_hash_with magic cs param pass rand = .ok out) :
    ∃ s, out = magic ++ s ++ [36] ++ cs pass s ∧ s.length ≤ MAX_SALT_LEN ∧
      s.all inAlpha = true := by
  unfold md5c_hash_with at h
  cases hin : into_hash_setup param (parse_md5c_hash magic) with
  | error e => rw [hin] at h; exact absurd h (by simp)
  | ok hs =>
    rw [hin] at h
    simp only [] at h
    have engine : ∀ s0 : List Nat, do_md5_crypt cs pass s0 magic = .ok out →
        s0.all inAlpha = true ∧ out = magic ++ s0 ++ [36] ++ cs pass s0 := by
      intro s0 hs0
      unfold do_md5_crypt at hs0
      by_cases ha : s0.all inAlpha = true
      · rw [if_pos ha] at hs0
        refine ⟨ha, ?_⟩
        have := Except.ok.inj hs0
        rw [← this]
      · rw [if_neg ha] at hs0
        exact absurd hs0 (by simp)
    cases hsalt : hs.salt with
    | none =>
      rw [hsalt] at h
      simp only [] at h
      obtain ⟨ha, hout⟩ := engine _ h
      exact ⟨_, hout, by rw [gen_salt_str_length], ha⟩
    | some salt =>
      rw [hsalt] at h
      simp only [] at h
      by_cases hlen : salt.length ≤ MAX_SALT_LEN
      · rw [if_pos hlen] at h
        obtain ⟨ha, hout⟩ := engine _ h
        exact ⟨salt, hout, hlen, ha⟩
      · rw [if_neg hlen] at h
        have htr : ((HashSlice.new salt).take MAX_SALT_LEN).1 =
            if utf8Valid (salt.take MAX_SALT_LEN) then some (salt.take MAX_SALT_LEN)
            else none := by
          have havail : (HashSlice.new salt).pos + MAX_SALT_LEN ≤ (HashSlice.new salt).len := by
            simp only [HashSlice.new]
            omega
          rw [take_of_avail _ _ havail]
          simp [HashSlice.new]
        by_cases hv : utf8Valid (salt.take MAX_SALT_LEN) = true
        · rw [if_pos hv] at htr
          rw [htr] at h
          simp only [] at h
          obtain ⟨ha, hout⟩ := engine _ h
          refine ⟨salt.take MAX_SALT_LEN, hout, ?_, ha⟩
          rw [List.length_take]
          omega
        · rw [if_neg hv] at htr
          rw [htr] at h
          simp only [] at h
          exact absurd h (by simp)

/-- Success form of the md5-family engine. -/
theorem do_md5_crypt_ok (cs : List Nat → List Nat → List Nat)
    (pass s0 magic out : List Nat) (h : do_md5_crypt cs pass s0 magic = .ok out) :
    s0.all inAlpha = true ∧ out = magic ++ s0 ++ [36] ++ cs pass s0 := by
  unfold do_md5_crypt at h
  by_cases ha : s0.all inAlpha = true
  · rw [if_pos ha] at h
    exact ⟨ha, (Except.ok.inj h).symm⟩
  · rw [if_neg ha] at h
    exact absurd h (by simp)

/-- Re-deriving an assembled md5-family string reproduces it exactly. -/
theorem md5c_rt (magic : List Nat) (cs : List Nat → List Nat → List Nat)
    (pass : List Nat) (rand2 : Nat → Nat) (s : List Nat)
    (hmagic : ∀ b ∈ magic, b ≤ 127) (ha : s.all inAlpha = true)
    (hlen : s.length ≤ MAX_SALT_LEN) :
    md5c_hash_with magic cs (.inr (magic ++ s ++ [36] ++ cs pass s)) pass rand2 =
      .ok (magic ++ s ++ [36] ++ cs pass s) := by
  rw [md5c_rederive magic cs pass rand2 s (cs pass s) hmagic ha hlen]
  unfold do_md5_crypt
  rw [if_pos ha]

/-! ### UnixDes -/

/-- Success form of the UnixDes engine. -/
theorem unix_crypt_ok (cs : List Nat → List Nat → List Nat)
    (pass salt out : List Nat) (h : unix_crypt cs pass salt = .ok out) :
    2 ≤ salt.length ∧ (salt.take 2).all inAlpha = true ∧
      out = salt.take 2 ++ cs pass (salt.take 2) := by
  unfold unix_crypt at h
  by_cases h2 : salt.length < 2
  · rw [if_pos h2] at h
    exact absurd h (by simp)
  · rw [if_neg h2] at h
    by_cases ha : (salt.take 2).all inAlpha = true
    · rw [if_pos ha] at h
      exact ⟨by omega, ha, (Except.ok.inj h).symm⟩
    · rw [if_neg ha] at h
      exact absurd h (by simp)

/-- UnixDes engine on a string starting with a valid 2-character salt. -/
theorem unix_crypt_self (cs : List Nat → List Nat → List Nat)
    (pass s2 : List Nat) (hs2len : s2.length = 2)
    (hs2alpha : s2.all inAlpha = true) :
    unix_crypt cs pass (s2 ++ cs pass s2) = .ok (s2 ++ cs pass s2) := by
  unfold unix_crypt
  have hlen : (s2 ++ cs pass s2).length = 2 + (cs pass s2).length := by
    rw [List.length_append, hs2len]
  have htake : (s2 ++ cs pass s2).take 2 = s2 := List.take_left' hs2len
  rw [if_neg (by omega), htake, if_pos hs2alpha]

/-! ### BsdiDes -/

theorem bsdiMAX_lt : bsdiMAX_ROUNDS < 2 ^ 24 := by norm_num [bsdiMAX_ROUNDS]

/-- Parsing an assembled BSDi string recovers the rounds and the salt. -/
theorem parse_bsdi_of_form (r : Nat) (s4 c : List Nat) (hr : r < 2 ^ 24)
    (hs4len : s4.length = 4) (hs4alpha : s4.all inAlpha = true) :
    parse_bsdi_hash (strBytes "_" ++ encode_val r 4 ++ s4 ++ c) =
      .ok ⟨some s4, some r⟩ := by
  set l := strBytes "_" ++ encode_val r 4 ++ s4 ++ c with hldef
  have hu : (strBytes "_").length = 1 := by decide
  have henc := encode_val_length r 4
  have hlen : l.length = 1 + (4 + (4 + c.length)) := by
    rw [hldef]
    simp only [List.length_append, hu, henc, hs4len]
    omega
  have hre1 : l = [] ++ (strBytes "_" ++ (encode_val r 4 ++ (s4 ++ c))) := by
    rw [hldef]; simp [List.append_assoc]
  have hre2 : l = strBytes "_" ++ (encode_val r 4 ++ (s4 ++ c)) := by
    rw [hldef]; simp [List.append_assoc]
  have hre3 : l = (strBytes "_" ++ encode_val r 4) ++ (s4 ++ c) := by
    rw [hldef]; simp [List.append_assoc]
  have htake1 : (⟨l, l.length, 0⟩ : HashSlice).take 1 =
      (some (strBytes "_"), ⟨l, l.length, 0 + 1 + (if 0 + 1 = l.length then 1 else 0)⟩) :=
    take_mid l [] (strBytes "_") (encode_val r 4 ++ (s4 ++ c)) 0 rfl hre1
      (by decide) 1 hu.symm
  rw [if_neg (by omega)] at htake1
  have htake2 : (⟨l, l.length, 0 + 1 + 0⟩ : HashSlice).take bsdiROUNDS_LEN =
      (some (encode_val r 4), ⟨l, l.length, 0 + 1 + 0 + bsdiROUNDS_LEN +
        (if 0 + 1 + 0 + bsdiROUNDS_LEN = l.length then 1 else 0)⟩) :=
    take_mid l (strBytes "_") (encode_val r 4) (s4 ++ c) (0 + 1 + 0) (by omega)
      hre2 (encode_val_ascii r 4) bsdiROUNDS_LEN (by rw [henc]; rfl)
  rw [if_neg (by simp only [bsdiROUNDS_LEN]; omega)] at htake2
  have htake3 : (⟨l, l.length, 0 + 1 + 0 + bsdiROUNDS_LEN + 0⟩ : HashSlice).take bsdiSALT_LEN =
      (some s4, ⟨l, l.length, 0 + 1 + 0 + bsdiROUNDS_LEN + 0 + bsdiSALT_LEN +
        (if 0 + 1 + 0 + bsdiROUNDS_LEN + 0 + bsdiSALT_LEN = l.length then 1 else 0)⟩) :=
    take_mid l (strBytes "_" ++ encode_val r 4) s4 c (0 + 1 + 0 + bsdiROUNDS_LEN + 0)
      (by simp only [List.length_append, hu, henc, bsdiROUNDS_LEN]; try omega)
      (by rw [hre3, List.append_assoc]) (all_inAlpha_ascii hs4alpha)
      bsdiSALT_LEN (by rw [hs4len]; rfl)
  have hdec : decode_val (encode_val r 4) bsdiSALT_LEN = .ok r := by
    have h4 : bsdiSALT_LEN = 4 := rfl
    rw [h4]
    exact decode_encode_val_four r hr
  unfold parse_bsdi_hash
  simp only [HashSlice.new, htake1, htake2, htake3, hdec, Option.getD_some, ne_eq,
    not_true_eq_false, if_false, ite_false]

/-- Success form of the BSDi engine. -/
theorem bsdi_crypt_ok (cs : List Nat → List Nat → Nat → List Nat)
    (pass salt : List Nat) (rounds : Nat) (out : List Nat)
    (h : bsdi_crypt cs pass salt rounds = .ok out) :
    4 ≤ salt.length ∧ (salt.take 4).all inAlpha = true ∧
      out = strBytes "_" ++ encode_val rounds 4 ++ salt.take 4 ++
        cs pass (salt.take 4) rounds := by
  unfold bsdi_crypt at h
  by_cases h4 : salt.length < 4
  · rw [if_pos h4] at h
    exact absurd h (by simp)
  · rw [if_neg h4] at h
    by_cases ha : (salt.take 4).all inAlpha = true
    · rw [if_pos ha] at h
      exact ⟨by omega, ha, (Except.ok.inj h).symm⟩
    · rw [if_neg ha] at h
      exact absurd h (by simp)

/-- Every hash `bsdi_hash_with` can produce has the canonical form with
in-range rounds and a valid 4-character salt. -/
theorem bsdi_produced (cs : List Nat → List Nat → Nat → List Nat)
    (param : HashSetup ⊕ List Nat) (pass : List Nat) (rand : Nat → Nat)
    (h : Hash) (hok : bsdi_hash_with cs param pass rand = .ok h) :
    ∃ r s4, h = .Bsdi (strBytes "_" ++ encode_val r 4 ++ s4 ++ cs pass s4 r) ∧
      bsdiMIN_ROUNDS ≤ r ∧ r ≤ bsdiMAX_ROUNDS ∧ s4.length = 4 ∧
      s4.all inAlpha = true := by
  unfold bsdi_hash_with at hok
  cases hin : into_hash_setup param parse_bsdi_hash with
  | error e => rw [hin] at hok; exact absurd hok (by simp)
  | ok hs =>
    rw [hin] at hok
    simp only [] at hok
    have hcrypt : ∀ (salt : List Nat) (r : Nat), bsdiMIN_ROUNDS ≤ r → r ≤ bsdiMAX_ROUNDS →
        (bsdi_crypt cs pass salt r).map Hash.Bsdi = .ok h →
        ∃ r' s4, h = .Bsdi (strBytes "_" ++ encode_val r' 4 ++ s4 ++ cs pass s4 r') ∧
          bsdiMIN_ROUNDS ≤ r' ∧ r' ≤ bsdiMAX_ROUNDS ∧ s4.length = 4 ∧
          s4.all inAlpha = true := by
      intro salt r hr1 hr2 hmap
      obtain ⟨out, hout, hh⟩ := (exceptMap_ok_iff _ _ _).mp hmap
      obtain ⟨hsl, hsa, hform⟩ := bsdi_crypt_ok cs pass salt r out hout
      refine ⟨r, salt.take 4, ?_, hr1, hr2, ?_, hsa⟩
      · rw [hh, hform]
      · rw [List.length_take]; omega
    cases hrounds : hs.rounds with
    | some r =>
      rw [hrounds] at hok
      simp only [] at hok
      by_cases hrange : bsdiMIN_ROUNDS ≤ r ∧ r ≤ bsdiMAX_ROUNDS
      · rw [if_pos hrange] at hok
        simp only [] at hok
        cases hsalt : hs.salt with
        | some salt =>
          rw [hsalt] at hok
          exact hcrypt salt r hrange.1 hrange.2 hok
        | none =>
          rw [hsalt] at hok
          exact hcrypt _ r hrange.1 hrange.2 hok
      · rw [if_neg hrange] at hok
        simp only [] at hok
        exact absurd hok (by simp)
    | none =>
      rw [hrounds] at hok
      simp only [] at hok
      have hd1 : bsdiMIN_ROUNDS ≤ bsdiDEFAULT_ROUNDS := by norm_num [bsdiMIN_ROUNDS, bsdiDEFAULT_ROUNDS]
      have hd2 : bsdiDEFAULT_ROUNDS ≤ bsdiMAX_ROUNDS := by norm_num [bsdiDEFAULT_ROUNDS, bsdiMAX_ROUNDS]
      cases hsalt : hs.salt with
      | some salt =>
        rw [hsalt] at hok
        exact hcrypt salt _ hd1 hd2 hok
      | none =>
        rw [hsalt] at hok
        exact hcrypt _ _ hd1 hd2 hok

/-- Re-deriving an assembled BSDi string reproduces it exactly. -/
theorem bsdi_rt (cs : List Nat → List Nat → Nat → List Nat) (pass : List Nat)
    (rand2 : Nat → Nat) (r : Nat) (s4 : List Nat)
    (hr1 : bsdiMIN_ROUNDS ≤ r) (hr2 : r ≤ bsdiMAX_ROUNDS)
    (hs4len : s4.length = 4) (hs4alpha : s4.all inAlpha = true) :
    bsdi_hash_with cs (.inr (strBytes "_" ++ encode_val r 4 ++ s4 ++ cs pass s4 r))
      pass rand2 =
      .ok (.Bsdi (strBytes "_" ++ encode_val r 4 ++ s4 ++ cs pass s4 r)) := by
  have hparse := parse_bsdi_of_form r s4 (cs pass s4 r)
    (by have := bsdiMAX_lt; omega) hs4len hs4alpha
  unfold bsdi_hash_with into_hash_setup
  simp only []
  rw [hparse]
  simp only []
  rw [if_pos ⟨hr1, hr2⟩]
  simp only []
  unfold bsdi_crypt
  have htk : s4.take 4 = s4 := by rw [← hs4len]; exact List.take_length s4
  rw [if_neg (by omega), htk, if_pos hs4alpha]
  rfl

/-! ### sha-crypt -/

theorem SHA_TAG_len : SHA_ROUNDS_TAG.length = 7 := by decide

theorem SHA_TAG_ascii : ∀ b ∈ SHA_ROUNDS_TAG, b ≤ 127 := by decide

theorem SHA_TAG_no_dollar : (36 : Nat) ∉ SHA_ROUNDS_TAG := by decide

theorem decEnc_ascii (n : Nat) : ∀ c ∈ decEnc n, c ≤ 127 := by
  intro c hc
  have := decEnc_digits n c hc
  omega

theorem decEnc_no_dollar (n : Nat) : (36 : Nat) ∉ decEnc n := by
  intro hmem
  have := decEnc_digits n 36 hmem
  omega

/-- A radix-64 salt can never look like a `rounds=` token: `=` is not in
the alphabet. -/
theorem salt_take_ne_tag {salt : List Nat} (h : salt.all inAlpha = true) :
    salt.take SHA_ROUNDS_TAG.length ≠ SHA_ROUNDS_TAG := by
  intro heq
  have h61tag : (61 : Nat) ∈ SHA_ROUNDS_TAG := by decide
  have h61 : (61 : Nat) ∈ salt := List.mem_of_mem_take (by rw [heq]; exact h61tag)
  have := List.all_eq_true.mp h 61 h61
  have hno : inAlpha 61 = false := by decide
  rw [hno] at this
  simp at this

/-- Success form of the sha-crypt engine, explicit-rounds case. -/
theorem do_sha_crypt_ok_some (magic : List Nat) (cs : List Nat → List Nat → Nat → List Nat)
    (pass salt out : List Nat) (r : Nat)
    (h : do_sha_crypt magic cs pass salt (some r) = .ok out) :
    salt.all inAlpha = true ∧
      out = magic ++ (SHA_ROUNDS_TAG ++ decEnc r ++ [36]) ++ salt ++ [36] ++
        cs pass salt r := by
  unfold do_sha_crypt at h
  by_cases ha : salt.all inAlpha = true
  · rw [if_pos ha] at h
    refine ⟨ha, ?_⟩
    have := (Except.ok.inj h).symm
    rw [this]
    simp [List.append_assoc]
  · rw [if_neg ha] at h
    exact absurd h (by simp)

/-- Success form of the sha-crypt engine, default-rounds case. -/
theorem do_sha_crypt_ok_none (magic : List Nat) (cs : List Nat → List Nat → Nat → List Nat)
    (pass salt out : List Nat)
    (h : do_sha_crypt magic cs pass salt none = .ok out) :
    salt.all inAlpha = true ∧
      out = magic ++ salt ++ [36] ++ cs pass salt shaDEFAULT_ROUNDS := by
  unfold do_sha_crypt at h
  by_cases ha : salt.all inAlpha = true
  · rw [if_pos ha] at h
    refine ⟨ha, ?_⟩
    have := (Except.ok.inj h).symm
    rw [this]
    simp [List.append_assoc]
  · rw [if_neg ha] at h
    exact absurd h (by simp)

/-- Parsing an assembled sha string without a rounds token. -/
theorem parse_sha_of_form_none (magic salt c : List Nat)
    (hmagic : ∀ b ∈ magic, b ≤ 127) (hsalpha : salt.all inAlpha = true) :
    parse_sha_hash magic (magic ++ salt ++ [36] ++ c) = .ok ⟨some salt, none⟩ := by
  have hre : magic ++ salt ++ [36] ++ c = magic ++ (salt ++ (36 :: c)) := by
    simp [List.append_assoc]
  set l := magic ++ salt ++ [36] ++ c with hldef
  have hlen : l.length = magic.length + (salt.length + (1 + c.length)) := by
    rw [hldef]; simp only [List.length_append, List.length_cons, List.length_nil]; omega
  have htake : (⟨l, l.length, 0⟩ : HashSlice).take magic.length =
      (some magic, ⟨l, l.length, 0 + magic.length +
        (if 0 + magic.length = l.length then 1 else 0)⟩) :=
    take_mid l [] magic (salt ++ (36 :: c)) 0 rfl (by rw [hre]; rfl) hmagic magic.length rfl
  rw [if_neg (by omega)] at htake
  have htu : (⟨l, l.length, 0 + magic.length + 0⟩ : HashSlice).take_until 36 =
      (some salt, ⟨l, l.length, 0 + magic.length + 0 + salt.length + 1⟩) :=
    take_until_mid l magic salt c 36 (0 + magic.length + 0) (by omega)
      (by rw [hre]) (all_inAlpha_not_mem hsalpha inAlpha_dollar) (all_inAlpha_ascii hsalpha)
  unfold parse_sha_hash
  simp only [HashSlice.new, htake, htu, Option.getD_some, ne_eq, not_true_eq_false,
    if_false, ite_false]
  rw [if_neg (salt_take_ne_tag hsalpha)]

/-- Parsing an assembled sha string with a rounds token. -/
theorem parse_sha_of_form_some (magic salt c : List Nat) (r : Nat)
    (hmagic : ∀ b ∈ magic, b ≤ 127) (hsalpha : salt.all inAlpha = true) :
    parse_sha_hash magic
      (magic ++ (SHA_ROUNDS_TAG ++ decEnc r ++ [36]) ++ salt ++ [36] ++ c) =
      .ok ⟨some salt, some r⟩ := by
  set A := SHA_ROUNDS_TAG ++ decEnc r with hAdef
  have hAascii : ∀ b ∈ A, b ≤ 127 := by
    intro b hb
    rw [hAdef] at hb
    rcases List.mem_append.mp hb with h | h
    · exact SHA_TAG_ascii b h
    · exact decEnc_ascii r b h
  have hAdollar : (36 : Nat) ∉ A := by
    rw [hAdef]
    intro hb
    rcases List.mem_append.mp hb with h | h
    · exact SHA_TAG_no_dollar h
    · exact decEnc_no_dollar r h
  have hre0 : magic ++ (SHA_ROUNDS_TAG ++ decEnc r ++ [36]) ++ salt ++ [36] ++ c =
      magic ++ (A ++ (36 :: (salt ++ (36 :: c)))) := by
    rw [hAdef]; simp [List.append_assoc]
  set l := magic ++ (SHA_ROUNDS_TAG ++ decEnc r ++ [36]) ++ salt ++ [36] ++ c with hldef
  have hlen : l.length = magic.length + (A.length + (1 + (salt.length + (1 + c.length)))) := by
    rw [hre0]
    simp only [List.length_append, List.length_cons, List.length_nil]
    omega
  have htake : (⟨l, l.length, 0⟩ : HashSlice).take magic.length =
      (some magic, ⟨l, l.length, 0 + magic.length +
        (if 0 + magic.length = l.length then 1 else 0)⟩) :=
    take_mid l [] magic (A ++ (36 :: (salt ++ (36 :: c)))) 0 rfl (by rw [hre0]; rfl)
      hmagic magic.length rfl
  rw [if_neg (by omega)] at htake
  have htu1 : (⟨l, l.length, 0 + magic.length + 0⟩ : HashSlice).take_until 36 =
      (some A, ⟨l, l.length, 0 + magic.length + 0 + A.length + 1⟩) :=
    take_until_mid l magic A (salt ++ (36 :: c)) 36 (0 + magic.length + 0) (by omega)
      (by rw [hre0]) hAdollar hAascii
  have hre1 : l = (magic ++ (A ++ [36])) ++ (salt ++ (36 :: c)) := by
    rw [hre0]; simp [List.append_assoc]
  have htu2 : (⟨l, l.length, 0 + magic.length + 0 + A.length + 1⟩ : HashSlice).take_until 36 =
      (some salt, ⟨l, l.length, 0 + magic.length + 0 + A.length + 1 + salt.length + 1⟩) :=
    take_until_mid l (magic ++ (A ++ [36])) salt c 36 _
      (by simp only [List.length_append, List.length_cons, List.length_nil]; omega)
      (by rw [hre1, List.append_assoc])
      (all_inAlpha_not_mem hsalpha inAlpha_dollar) (all_inAlpha_ascii hsalpha)
  have htok_take : A.take SHA_ROUNDS_TAG.length = SHA_ROUNDS_TAG := by
    rw [hAdef]
    exact List.take_left SHA_ROUNDS_TAG (decEnc r)
  have htok_drop : A.drop SHA_ROUNDS_TAG.length = decEnc r := by
    rw [hAdef]
    exact List.drop_left SHA_ROUNDS_TAG (decEnc r)
  unfold parse_sha_hash
  simp only [HashSlice.new, htake, htu1, htu2, Option.getD_some, ne_eq,
    not_true_eq_false, if_false, ite_false, htok_take, htok_drop, decParse_decEnc,
    if_true, ite_true]

/-- Re-deriving an assembled sha string without a rounds token. -/
theorem sha_rt_none (magic : List Nat) (cs : List Nat → List Nat → Nat → List Nat)
    (mk : List Nat → Hash) (pass : List Nat) (rand2 : Nat → Nat) (salt : List Nat)
    (hmagic : ∀ b ∈ magic, b ≤ 127) (hsalpha : salt.all inAlpha = true)
    (hslen : salt.length ≤ shaMAX_SALT_LEN) :
    sha_hash_with magic cs mk
      (.inr (magic ++ salt ++ [36] ++ cs pass salt shaDEFAULT_ROUNDS)) pass rand2 =
      .ok (mk (magic ++ salt ++ [36] ++ cs pass salt shaDEFAULT_ROUNDS)) := by
  unfold sha_hash_with into_hash_setup
  simp only []
  rw [parse_sha_of_form_none magic salt _ hmagic hsalpha]
  simp only []
  rw [if_pos hslen]
  unfold do_sha_crypt
  rw [if_pos hsalpha]
  simp [Except.map]

/-- Re-deriving an assembled sha string with an in-range rounds token. -/
theorem sha_rt_some (magic : List Nat) (cs : List Nat → List Nat → Nat → List Nat)
    (mk : List Nat → Hash) (pass : List Nat) (rand2 : Nat → Nat) (salt : List Nat)
    (r : Nat) (hmagic : ∀ b ∈ magic, b ≤ 127) (hsalpha : salt.all inAlpha = true)
    (hslen : salt.length ≤ shaMAX_SALT_LEN)
    (hr1 : shaMIN_ROUNDS ≤ r) (hr2 : r ≤ shaMAX_ROUNDS) :
    sha_hash_with magic cs mk
      (.inr (magic ++ (SHA_ROUNDS_TAG ++ decEnc r ++ [36]) ++ salt ++ [36] ++
        cs pass salt r)) pass rand2 =
      .ok (mk (magic ++ (SHA_ROUNDS_TAG ++ decEnc r ++ [36]) ++ salt ++ [36] ++
        cs pass salt r)) := by
  unfold sha_hash_with into_hash_setup
  simp only []
  rw [parse_sha_of_form_some magic salt _ r hmagic hsalpha]
  simp only []
  rw [if_pos ⟨hr1, hr2⟩]
  simp only []
  rw [if_pos hslen]
  unfold do_sha_crypt
  rw [if_pos hsalpha]
  simp [Except.map, List.append_assoc]

/-- Every hash the sha-family `hash_with` produces has one of the two
canonical forms, with a valid in-length salt and in-range rounds. -/
theorem sha_produced (magic : List Nat) (cs : List Nat → List Nat → Nat → List Nat)
    (mk : List Nat → Hash) (param : HashSetup ⊕ List Nat) (pass : List Nat)
    (rand : Nat → Nat) (h : Hash)
    (hok : sha_hash_with magic cs mk param pass rand = .ok h) :
    ∃ salt, salt.all inAlpha = true ∧ salt.length ≤ shaMAX_SALT_LEN ∧
      (h = mk (magic ++ salt ++ [36] ++ cs pass salt shaDEFAULT_ROUNDS) ∨
       ∃ r, shaMIN_ROUNDS ≤ r ∧ r ≤ shaMAX_ROUNDS ∧
         h = mk (magic ++ (SHA_ROUNDS_TAG ++ decEnc r ++ [36]) ++ salt ++ [36] ++
           cs pass salt r)) := by
  unfold sha_hash_with at hok
  cases hin : into_hash_setup param (parse_sha_hash magic) with
  | error e => rw [hin] at hok; exact absurd hok (by simp)
  | ok hs =>
    rw [hin] at hok
    simp only [] at hok
    have main : ∀ salt : List Nat, salt.length ≤ shaMAX_SALT_LEN →
        (hs.rounds = none ∨ ∃ r, hs.rounds = some r ∧ shaMIN_ROUNDS ≤ r ∧ r ≤ shaMAX_ROUNDS) →
        (do_sha_crypt magic cs pass salt hs.rounds).map mk = .ok h →
        ∃ salt', salt'.all inAlpha = true ∧ salt'.length ≤ shaMAX_SALT_LEN ∧
          (h = mk (magic ++ salt' ++ [36] ++ cs pass salt' shaDEFAULT_ROUNDS) ∨
           ∃ r, shaMIN_ROUNDS ≤ r ∧ r ≤ shaMAX_ROUNDS ∧
             h = mk (magic ++ (SHA_ROUNDS_TAG ++ decEnc r ++ [36]) ++ salt' ++ [36] ++
               cs pass salt' r)) := by
      intro salt hsl hrv hmap
      obtain ⟨out, hout, hh⟩ := (exceptMap_ok_iff _ _ _).mp hmap
      rcases hrv with hrn | ⟨r, hrs, hr1, hr2⟩
      · rw [hrn] at hout
        obtain ⟨ha, hform⟩ := do_sha_crypt_ok_none magic cs pass salt out hout
        exact ⟨salt, ha, hsl, Or.inl (by rw [hh, hform])⟩
      · rw [hrs] at hout
        obtain ⟨ha, hform⟩ := do_sha_crypt_ok_some magic cs pass salt out r hout
        exact ⟨salt, ha, hsl, Or.inr ⟨r, hr1, hr2, by rw [hh, hform]⟩⟩
    have hrv : hs.rounds = none ∨
        ∃ r, hs.rounds = some r ∧ shaMIN_ROUNDS ≤ r ∧ r ≤ shaMAX_ROUNDS := by
      cases hrounds : hs.rounds with
      | none => exact Or.inl rfl
      | some r =>
        rw [hrounds] at hok
        simp only [] at hok
        by_cases hrange : shaMIN_ROUNDS ≤ r ∧ r ≤ shaMAX_ROUNDS
        · exact Or.inr ⟨r, rfl, hrange.1, hrange.2⟩
        · rw [if_neg hrange] at hok
          simp only [] at hok
          exact absurd hok (by simp)
    have hok2 : (match hs.salt with
        | some salt =>
          if salt.length ≤ shaMAX_SALT_LEN then (do_sha_crypt magic cs pass salt hs.rounds).map mk
          else .error .InvalidHashString
        | none => (do_sha_crypt magic cs pass (gen_salt_str shaMAX_SALT_LEN rand) hs.rounds).map mk)
        = .ok h := by
      rcases hrv with hrn | ⟨r, hrs, hr1, hr2⟩
      · rw [hrn] at hok
        simp only [] at hok
        rw [hrn]
        exact hok
      · rw [hrs] at hok
        simp only [] at hok
        rw [if_pos ⟨hr1, hr2⟩] at hok
        simp only [] at hok
        rw [hrs]
        exact hok
    cases hsalt : hs.salt with
    | some salt =>
      rw [hsalt] at hok2
      simp only [] at hok2
      by_cases hsl : salt.length ≤ shaMAX_SALT_LEN
      · rw [if_pos hsl] at hok2
        exact main salt hsl hrv hok2
      · rw [if_neg hsl] at hok2
        exact absurd hok2 (by simp)
    | none =>
      rw [hsalt] at hok2
      simp only [] at hok2
      exact main _ (by rw [gen_salt_str_length]) hrv hok2

/-! ### bcrypt -/

/-- Two-digit zero-padded decimal round-trips for values below 100. -/
theorem decParse_two_digits (cost : Nat) (h : cost < 100) :
    decParse [48 + cost / 10, 48 + cost % 10] = .ok cost := by
  have h10 : cost / 10 ≤ 9 := by omega
  have h1 : cost % 10 ≤ 9 := by omega
  unfold decParse
  simp only []
  rw [decParseGo_cons, if_pos (by omega), decParseGo_cons, if_pos (by omega),
    decParseGo_nil]
  congr 1
  have e1 : 48 + cost / 10 - 48 = cost / 10 := by omega
  have e2 : 48 + cost % 10 - 48 = cost % 10 := by omega
  rw [e1, e2]
  omega

theorem bcrypt_variant_facts (v : List Nat)
    (hv : v = strBytes "2a" ∨ v = strBytes "2b" ∨ v = strBytes "2y") :
    v.length = 2 ∧ (∀ b ∈ v, b ≤ 127) ∧ (36 : Nat) ∉ v := by
  rcases hv with h | h | h <;> rw [h] <;> refine ⟨by decide, by decide, by decide⟩

/-- Success form of the bcrypt engine. -/
theorem do_bcrypt_ok (cs : List Nat → List Nat → Nat → List Nat → List Nat)
    (pass variant : List Nat) (cost : Nat) (salt out : List Nat)
    (h : do_bcrypt cs pass variant cost salt = .ok out) :
    salt.all inAlpha = true ∧
      out = [36] ++ variant ++ [36] ++ [48 + cost / 10, 48 + cost % 10] ++ [36] ++
        salt ++ cs pass variant cost salt := by
  unfold do_bcrypt at h
  by_cases ha : salt.all inAlpha = true
  · rw [if_pos ha] at h
    exact ⟨ha, (Except.ok.inj h).symm⟩
  · rw [if_neg ha] at h
    exact absurd h (by simp)

/-- Parsing an assembled bcrypt string recovers variant, cost and salt. -/
theorem parse_bcrypt_of_form (v : List Nat) (cost : Nat) (salt c : List Nat)
    (hv : v = strBytes "2a" ∨ v = strBytes "2b" ∨ v = strBytes "2y")
    (hcost : cost < 100) (hsaltlen : salt.length = 22)
    (hsalpha : salt.all inAlpha = true) :
    parse_bcrypt_hash ([36] ++ v ++ [36] ++ [48 + cost / 10, 48 + cost % 10] ++
      [36] ++ salt ++ c) = .ok (v, ⟨some salt, some cost⟩) := by
  obtain ⟨hvlen, hvascii, hvdollar⟩ := bcrypt_variant_facts v hv
  set d2 : List Nat := [48 + cost / 10, 48 + cost % 10] with hd2def
  have hd2ascii : ∀ b ∈ d2, b ≤ 127 := by
    intro b hb
    rw [hd2def] at hb
    simp only [List.mem_cons, List.not_mem_nil, or_false] at hb
    rcases hb with h | h <;> omega
  have hd2dollar : (36 : Nat) ∉ d2 := by
    rw [hd2def]
    simp only [List.mem_cons, List.not_mem_nil, or_false]
    intro hb
    rcases hb with h | h <;> omega
  set l := [36] ++ v ++ [36] ++ d2 ++ [36] ++ salt ++ c with hldef
  have hre0 : l = [] ++ ([36] ++ (v ++ (36 :: (d2 ++ (36 :: (salt ++ c)))))) := by
    rw [hldef]; simp [List.append_assoc]
  have hlen : l.length = 1 + (2 + (1 + (2 + (1 + (22 + c.length))))) := by
    rw [hldef]
    simp only [List.length_append, List.length_cons, List.length_nil, hvlen, hd2def, hsaltlen]
    omega
  have htake1 : (⟨l, l.length, 0⟩ : HashSlice).take 1 =
      (some [36], ⟨l, l.length, 0 + 1 + (if 0 + 1 = l.length then 1 else 0)⟩) :=
    take_mid l [] [36] (v ++ (36 :: (d2 ++ (36 :: (salt ++ c))))) 0 rfl (by rw [hre0])
      (by decide) 1 rfl
  rw [if_neg (by omega)] at htake1
  have hre1 : l = [36] ++ (v ++ (36 :: (d2 ++ (36 :: (salt ++ c))))) := by
    rw [hldef]; simp [List.append_assoc]
  have htu1 : (⟨l, l.length, 0 + 1 + 0⟩ : HashSlice).take_until 36 =
      (some v, ⟨l, l.length, 0 + 1 + 0 + v.length + 1⟩) :=
    take_until_mid l [36] v (d2 ++ (36 :: (salt ++ c))) 36 (0 + 1 + 0) (by simp)
      hre1 hvdollar hvascii
  have hre2 : l = ([36] ++ v ++ [36]) ++ (d2 ++ (36 :: (salt ++ c))) := by
    rw [hldef]; simp [List.append_assoc]
  have htu2 : (⟨l, l.length, 0 + 1 + 0 + v.length + 1⟩ : HashSlice).take_until 36 =
      (some d2, ⟨l, l.length, 0 + 1 + 0 + v.length + 1 + d2.length + 1⟩) :=
    take_until_mid l ([36] ++ v ++ [36]) d2 (salt ++ c) 36 (0 + 1 + 0 + v.length + 1)
      (by simp only [List.length_append, List.length_cons, List.length_nil]; try omega)
      (by rw [hre2, List.append_assoc]) hd2dollar hd2ascii
  have hre3 : l = ([36] ++ v ++ [36] ++ d2 ++ [36]) ++ (salt ++ c) := by
    rw [hldef]; simp [List.append_assoc]
  have htake3 : (⟨l, l.length, 0 + 1 + 0 + v.length + 1 + d2.length + 1⟩ : HashSlice).take 22 =
      (some salt, ⟨l, l.length, 0 + 1 + 0 + v.length + 1 + d2.length + 1 + 22 +
        (if 0 + 1 + 0 + v.length + 1 + d2.length + 1 + 22 = l.length then 1 else 0)⟩) :=
    take_mid l ([36] ++ v ++ [36] ++ d2 ++ [36]) salt c
      (0 + 1 + 0 + v.length + 1 + d2.length + 1)
      (by simp only [List.length_append, List.length_cons, List.length_nil]; try omega)
      (by rw [hre3]) (all_inAlpha_ascii hsalpha) 22 hsaltlen.symm
  have hdp : decParse d2 = .ok cost := by
    rw [hd2def]
    exact decParse_two_digits cost hcost
  have hds : strBytes "$" = ([36] : List Nat) := by decide
  unfold parse_bcrypt_hash
  simp only [HashSlice.new, htake1, htu1, htu2, htake3, hdp, Option.getD_some, hds,
    ne_eq, not_true_eq_false, if_false, ite_false]
  rw [if_pos hv]

/-- A successful bcrypt parse only ever returns a recognized variant tag. -/
theorem parse_bcrypt_ok_inv (str v : List Nat) (hs : HashSetup)
    (h : parse_bcrypt_hash str = .ok (v, hs)) :
    v = strBytes "2a" ∨ v = strBytes "2b" ∨ v = strBytes "2y" := by
  unfold parse_bcrypt_hash at h
  simp only [HashSlice.new] at h
  rcases htk1 : (⟨str, str.length, 0⟩ : HashSlice).take 1 with ⟨t1, st1⟩
  rw [htk1] at h
  simp only [] at h
  by_cases hc1 : t1.getD [88] ≠ strBytes "$"
  · rw [if_pos hc1] at h
    exact absurd h (by simp)
  · rw [if_neg hc1] at h
    rcases htu1 : st1.take_until 36 with ⟨t2, st2⟩
    rw [htu1] at h
    cases t2 with
    | none => simp only [] at h; exact absurd h (by simp)
    | some v2 =>
      simp only [] at h
      by_cases hv2 : v2 = strBytes "2a" ∨ v2 = strBytes "2b" ∨ v2 = strBytes "2y"
      · rw [if_pos hv2] at h
        rcases htu2 : st2.take_until 36 with ⟨t3, st3⟩
        rw [htu2] at h
        cases t3 with
        | none => simp only [] at h; exact absurd h (by simp)
        | some cstr =>
          simp only [] at h
          cases hdp : decParse cstr with
          | error e => rw [hdp] at h; simp only [] at h; exact absurd h (by simp)
          | ok cost =>
            rw [hdp] at h
            simp only [] at h
            cases hs3 : (st3.take 22).1 with
            | none => rw [hs3] at h; simp only [] at h; exact absurd h (by simp)
            | some salt =>
              rw [hs3] at h
              simp only [] at h
              have hveq : v2 = v := congrArg Prod.fst (Except.ok.inj h)
              rw [← hveq]
              exact hv2
      · rw [if_neg hv2] at h
        exact absurd h (by simp)

/-- The post-parse bcrypt stage only produces the canonical form. -/
theorem bcrypt_core_produced (cs : List Nat → List Nat → Nat → List Nat → List Nat)
    (v : List Nat) (hs : HashSetup) (pass : List Nat) (rand : Nat → Nat) (h : Hash)
    (hok : bcrypt_core cs v hs pass rand = .ok h) :
    ∃ cost salt, 4 ≤ cost ∧ cost ≤ 31 ∧ salt.length = 22 ∧
      salt.all inAlpha = true ∧
      h = .Bcrypt ([36] ++ v ++ [36] ++ [48 + cost / 10, 48 + cost % 10] ++ [36] ++
        salt ++ cs pass v cost salt) := by
  unfold bcrypt_core at hok
  have hcrypt : ∀ (cost : Nat) (salt : List Nat), 4 ≤ cost → cost ≤ 31 →
      salt.length = 22 → (do_bcrypt cs pass v cost salt).map Hash.Bcrypt = .ok h →
      ∃ cost' salt', 4 ≤ cost' ∧ cost' ≤ 31 ∧ salt'.length = 22 ∧
        salt'.all inAlpha = true ∧
        h = .Bcrypt ([36] ++ v ++ [36] ++ [48 + cost' / 10, 48 + cost' % 10] ++ [36] ++
          salt' ++ cs pass v cost' salt') := by
    intro cost salt hc1 hc2 hsl hmap
    obtain ⟨out, hout, hh⟩ := (exceptMap_ok_iff _ _ _).mp hmap
    obtain ⟨ha, hform⟩ := do_bcrypt_ok cs pass v cost salt out hout
    exact ⟨cost, salt, hc1, hc2, hsl, ha, by rw [hh, hform]⟩
  cases hrounds : hs.rounds with
  | some c =>
    rw [hrounds] at hok
    simp only [] at hok
    by_cases hcr : 4 ≤ c ∧ c ≤ 31
    · rw [if_pos hcr] at hok
      simp only [] at hok
      cases hsalt : hs.salt with
      | some salt =>
        rw [hsalt] at hok
        simp only [] at hok
        by_cases hsl : salt.length = 22
        · rw [if_pos hsl] at hok
          exact hcrypt c salt hcr.1 hcr.2 hsl hok
        · rw [if_neg hsl] at hok
          exact absurd hok (by simp)
      | none =>
        rw [hsalt] at hok
        simp only [] at hok
        exact hcrypt c _ hcr.1 hcr.2 (gen_salt_str_length 22 rand) hok
    · rw [if_neg hcr] at hok
      simp only [] at hok
      exact absurd hok (by simp)
  | none =>
    rw [hrounds] at hok
    simp only [] at hok
    cases hsalt : hs.salt with
    | some salt =>
      rw [hsalt] at hok
      simp only [] at hok
      by_cases hsl : salt.length = 22
      · rw [if_pos hsl] at hok
        exact hcrypt 12 salt (by omega) (by omega) hsl hok
      · rw [if_neg hsl] at hok
        exact absurd hok (by simp)
    | none =>
      rw [hsalt] at hok
      simp only [] at hok
      exact hcrypt 12 _ (by omega) (by omega) (gen_salt_str_length 22 rand) hok

/-- Every hash `bcrypt_hash_with` produces has the canonical form with a
recognized variant tag, in-range cost and a valid 22-character salt. -/
theorem bcrypt_produced (cs : List Nat → List Nat → Nat → List Nat → List Nat)
    (param : HashSetup ⊕ List Nat) (pass : List Nat) (rand : Nat → Nat) (h : Hash)
    (hok : bcrypt_hash_with cs param pass rand = .ok h) :
    ∃ v cost salt, (v = strBytes "2a" ∨ v = strBytes "2b" ∨ v = strBytes "2y") ∧
      4 ≤ cost ∧ cost ≤ 31 ∧ salt.length = 22 ∧ salt.all inAlpha = true ∧
      h = .Bcrypt ([36] ++ v ++ [36] ++ [48 + cost / 10, 48 + cost % 10] ++ [36] ++
        salt ++ cs pass v cost salt) := by
  unfold bcrypt_hash_with at hok
  cases param with
  | inl s =>
    simp only [] at hok
    obtain ⟨cost, salt, hc1, hc2, hsl, ha, hform⟩ :=
      bcrypt_core_produced cs (strBytes "2b") s pass rand h hok
    exact ⟨strBytes "2b", cost, salt, Or.inr (Or.inl rfl), hc1, hc2, hsl, ha, hform⟩
  | inr str =>
    simp only [] at hok
    cases hparse : parse_bcrypt_hash str with
    | error e => rw [hparse] at hok; exact absurd hok (by simp)
    | ok pr =>
      obtain ⟨v, hs⟩ := pr
      rw [hparse] at hok
      simp only [] at hok
      obtain ⟨cost, salt, hc1, hc2, hsl, ha, hform⟩ :=
        bcrypt_core_produced cs v hs pass rand h hok
      exact ⟨v, cost, salt, parse_bcrypt_ok_inv str v hs hparse, hc1, hc2, hsl, ha, hform⟩

/-- Re-deriving an assembled bcrypt string reproduces it exactly. -/
theorem bcrypt_rt (cs : List Nat → List Nat → Nat → List Nat → List Nat)
    (pass : List Nat) (rand2 : Nat → Nat) (v : List Nat) (cost : Nat)
    (salt : List Nat)
    (hv : v = strBytes "2a" ∨ v = strBytes "2b" ∨ v = strBytes "2y")
    (hc1 : 4 ≤ cost) (hc2 : cost ≤ 31) (hslen : salt.length = 22)
    (hsalpha : salt.all inAlpha = true) :
    bcrypt_hash_with cs
      (.inr ([36] ++ v ++ [36] ++ [48 + cost / 10, 48 + cost % 10] ++ [36] ++
        salt ++ cs pass v cost salt)) pass rand2 =
      .ok (.Bcrypt ([36] ++ v ++ [36] ++ [48 + cost / 10, 48 + cost % 10] ++ [36] ++
        salt ++ cs pass v cost salt)) := by
  unfold bcrypt_hash_with
  simp only []
  rw [parse_bcrypt_of_form v cost salt _ hv (by omega) hslen hsalpha]
  simp only []
  unfold bcrypt_core
  simp only []
  rw [if_pos ⟨hc1, hc2⟩]
  simp only []
  rw [if_pos hslen]
  unfold do_bcrypt
  rw [if_pos hsalpha]
  rfl

/-! ## Claim theorems -/

/-- C6: for every hash string (ASCII, as all hash strings are) and every
`n ≥ 1`, `HashSlice::take(n)` returns none and marks the cursor exhausted
when fewer than `n` bytes remain; otherwise it returns the next `n` bytes
and advances past them, advancing one extra position (exhausting the
cursor) exactly when the string is now fully consumed. -/
theorem spec_take_semantics (bp : List Nat) (pos n : Nat) (hn : 1 ≤ n)
    (hascii : ∀ b ∈ bp, b ≤ 127) :
    (bp.length - pos < n →
      ((⟨bp, bp.length, pos⟩ : HashSlice).take n).1 = none ∧
      (((⟨bp, bp.length, pos⟩ : HashSlice).take n).2).len <
        (((⟨bp, bp.length, pos⟩ : HashSlice).take n).2).pos) ∧
    (n ≤ bp.length - pos →
      ((⟨bp, bp.length, pos⟩ : HashSlice).take n).1 = some ((bp.drop pos).take n) ∧
      (((⟨bp, bp.length, pos⟩ : HashSlice).take n).2).pos =
        pos + n + (if pos + n = bp.length then 1 else 0) ∧
      ((((⟨bp, bp.length, pos⟩ : HashSlice).take n).2).len <
        (((⟨bp, bp.length, pos⟩ : HashSlice).take n).2).pos ↔ pos + n = bp.length)) := by
  constructor
  · intro hshort
    by_cases hp : pos ≤ bp.length
    · rw [take_of_short ⟨bp, bp.length, pos⟩ n (by simp only; omega) (by simp only; omega)]
      exact ⟨rfl, by simp only; omega⟩
    · rw [take_of_exhausted ⟨bp, bp.length, pos⟩ n (by simp only; omega)]
      exact ⟨rfl, by simp only; omega⟩
  · intro havail
    have hp : pos + n ≤ bp.length := by omega
    rw [take_of_avail_ascii ⟨bp, bp.length, pos⟩ n (by simp only; omega) hascii]
    refine ⟨rfl, rfl, ?_⟩
    simp only
    split_ifs <;> omega

/-- C6 witness: `take 2` on `"ab"` from position 0 returns `"ab"` and
exhausts; `take 5` returns none and exhausts. -/
theorem spec_take_semantics_witness :
    (2 ≤ ([97, 98] : List Nat).length - 0 →
      ((⟨[97, 98], ([97, 98] : List Nat).length, 0⟩ : HashSlice).take 2).1 =
        some ((([97, 98] : List Nat).drop 0).take 2) ∧
      (((⟨[97, 98], ([97, 98] : List Nat).length, 0⟩ : HashSlice).take 2).2).pos =
        0 + 2 + (if 0 + 2 = ([97, 98] : List Nat).length then 1 else 0) ∧
      ((((⟨[97, 98], ([97, 98] : List Nat).length, 0⟩ : HashSlice).take 2).2).len <
        (((⟨[97, 98], ([97, 98] : List Nat).length, 0⟩ : HashSlice).take 2).2).pos ↔
        0 + 2 = ([97, 98] : List Nat).length)) ∧
    (([97, 98] : List Nat).length - 0 < 5 →
      ((⟨[97, 98], ([97, 98] : List Nat).length, 0⟩ : HashSlice).take 5).1 = none ∧
      (((⟨[97, 98], ([97, 98] : List Nat).length, 0⟩ : HashSlice).take 5).2).len <
        (((⟨[97, 98], ([97, 98] : List Nat).length, 0⟩ : HashSlice).take 5).2).pos) :=
  ⟨(spec_take_semantics [97, 98] 0 2 (by omega) (by decide)).2,
   (spec_take_semantics [97, 98] 0 5 (by omega) (by decide)).1⟩

/-- C7 counterexample: on a freshly created cursor over the empty string,
`at_end()` returns `false`, not `true` — the source's own test
(src/parse.rs line 121) asserts exactly this. -/
theorem spec_at_end_cx : ((HashSlice.new []).at_end).1 = false := rfl

/-- C7 amended: `at_end()` returns true iff the cursor is already
exhausted (`pos > len`), which is strictly stronger than "no more bytes
are available" (`pos ≥ len`); in particular on a fresh cursor over the
empty string (`pos = len = 0`) it returns `false`. -/
theorem spec_at_end_amended (bp : List Nat) (len pos : Nat) :
    ((⟨bp, len, pos⟩ : HashSlice).at_end).1 = decide (len < pos) ∧
    ((HashSlice.new []).at_end).1 = false := by
  refine ⟨?_, rfl⟩
  unfold HashSlice.at_end
  by_cases h : len < pos
  · rw [take_of_exhausted ⟨bp, len, pos⟩ 0 h]
    simp [h]
  · rw [take_of_avail ⟨bp, len, pos⟩ 0 (by show pos + 0 ≤ len; omega)]
    simp only [List.take_zero]
    have hu : utf8Valid [] = true := rfl
    simp [hu, h]

/-- C8: once `pos > len` the cursor is permanently exhausted — `take` (any
`n`) and `take_until` (any delimiter) return none and leave the cursor in
the same exhausted state. -/
theorem spec_exhausted_permanent (bp : List Nat) (len pos n ac : Nat)
    (hex : len < pos) :
    (⟨bp, len, pos⟩ : HashSlice).take n = (none, ⟨bp, len, pos⟩) ∧
    (⟨bp, len, pos⟩ : HashSlice).take_until ac = (none, ⟨bp, len, pos⟩) :=
  ⟨take_of_exhausted _ _ hex, take_until_of_exhausted _ _ hex⟩

/-- C8 witness at a concrete exhausted cursor. -/
theorem spec_exhausted_permanent_witness :
    (⟨[97], 1, 2⟩ : HashSlice).take 5 = (none, ⟨[97], 1, 2⟩) ∧
    (⟨[97], 1, 2⟩ : HashSlice).take_until 36 = (none, ⟨[97], 1, 2⟩) :=
  spec_exhausted_permanent [97] 1 2 5 36 (by omega)

/-- C9: `gen_salt_str(n)` draws `ceil(n/4)*3` random bytes, radix-64
encodes them (yielding `4*ceil(n/4) ≥ n` characters), and the popping loop
truncates the result to exactly `n` characters — for every `n` and every
random stream. -/
theorem spec_gen_salt_len (n : Nat) (rand : Nat → Nat) :
    (bcrypt_hash64_encode ((List.range ((n + 3) / 4 * 3)).map fun i => rand i % 256)).length =
      4 * ((n + 3) / 4) ∧
    (gen_salt_str n rand).length = n := by
  constructor
  · rw [bcrypt_hash64_encode_length, List.length_map, List.length_range]
    omega
  · exact gen_salt_str_length n rand

/-- C3: the three recognition vectors — an apr1 hash string yields the
Apr1 variant, a 13-byte string with no `$`/`_` prefix yields Unix, and
`"!!"` is rejected with `InvalidHashString`. -/
theorem spec_recognition_vectors :
    tryFromStr (strBytes "$apr1$63JlJ2NH$smE0mnB5h3tDri0zkpWXt1") =
      .ok (Hash.Apr1 (strBytes "$apr1$63JlJ2NH$smE0mnB5h3tDri0zkpWXt1")) ∧
    tryFromStr (strBytes "aZGJuE6EXrjEE") =
      .ok (Hash.Unix (strBytes "aZGJuE6EXrjEE")) ∧
    tryFromStr (strBytes "!!") = .error .InvalidHashString :=
  ⟨rfl, rfl, rfl⟩

/-- C10: every string whose first byte is `_` and whose total length is
not the BsdiDes fixed length 20 — longer ones included — is rejected with
`InsufficientLength` and never recognized as another variant. -/
theorem spec_underscore_gate (t : List Nat)
    (hlen : (95 :: t).length ≠ bsdiHASH_LENGTH) :
    tryFromStr (95 :: t) = .error .InsufficientLength := by
  have htake : (⟨95 :: t, (95 :: t).length, 0⟩ : HashSlice).take 1 =
      (some [95], ⟨95 :: t, (95 :: t).length, 0 + 1 +
        (if 0 + 1 = (95 :: t).length then 1 else 0)⟩) :=
    take_mid (95 :: t) [] [95] t 0 rfl rfl (by decide) 1 rfl
  unfold tryFromStr
  simp only [HashSlice.new, htake, Option.getD_some]
  rw [if_pos (by decide : ([95] : List Nat) = strBytes "_")]
  unfold gatel
  rw [if_neg hlen]
  rfl

/-- C10 witness: `"_x"` (length 2) and a 26-byte `_`-string are both
rejected with `InsufficientLength`. -/
theorem spec_underscore_gate_witness :
    tryFromStr (95 :: [120]) = .error .InsufficientLength ∧
    tryFromStr (95 :: List.replicate 25 97) = .error .InsufficientLength :=
  ⟨spec_underscore_gate [120] (by decide),
   spec_underscore_gate (List.replicate 25 97) (by decide)⟩

/-- A concrete stand-in digest bundle for evaluating the framing at
specific inputs (each digest returns checksum-width runs of `.`,
character 46 of the radix-64 alphabet). -/
def dEngines : Engines :=
  { md5 := fun _ _ => List.replicate 22 46
    bsdi := fun _ _ _ => List.replicate 11 46
    unix := fun _ _ => List.replicate 11 46
    sha256 := fun _ _ _ => List.replicate 43 46
    sha512 := fun _ _ _ => List.replicate 86 46
    bcrypt := fun _ _ _ _ => List.replicate 31 46
    sha1f := fun _ _ => .error .InvalidHashString }

/-- The all-zero random stream. -/
def zeroRand : Nat → Nat := fun _ => 0

/-- The BSDi engine only fails with `InsufficientLength` or
`EncodingError`, never `InvalidRounds`. -/
theorem bsdi_crypt_error (cs : List Nat → List Nat → Nat → List Nat)
    (pass salt : List Nat) (rounds : Nat) (e : Error)
    (h : bsdi_crypt cs pass salt rounds = .error e) :
    e = .InsufficientLength ∨ e = .EncodingError := by
  unfold bsdi_crypt at h
  by_cases h4 : salt.length < 4
  · rw [if_pos h4] at h
    exact Or.inl (Except.error.inj h).symm
  · rw [if_neg h4] at h
    by_cases ha : (salt.take 4).all inAlpha = true
    · rw [if_pos ha] at h
      exact absurd h (by simp)
    · rw [if_neg ha] at h
      exact Or.inr (Except.error.inj h).symm

/-- C2: `verify` of the variants and `Hash::verify` absorb every internal
error of the recomputation into `false` — they are total boolean functions
that never propagate an error. -/
theorem spec_verify_absorbs (en : Engines) (pass h1 h2 h3 : List Nat)
    (rand : Nat → Nat) (hv : Hash) (e1 e2 e3 e4 : Error)
    (herr1 : apr1_hash_with en.md5 (.inr h1) pass rand = .error e1)
    (herr2 : bsdi_hash_with en.bsdi (.inr h2) pass rand = .error e2)
    (herr3 : unix_crypt en.unix pass h3 = .error e3)
    (herr4 : Hash.hash_with en hv pass rand = .error e4) :
    apr1_verify en.md5 pass h1 rand = false ∧
    bsdi_verify en.bsdi pass h2 rand = false ∧
    unix_verify en.unix pass h3 = false ∧
    Hash.verify en hv pass rand = false := by
  refine ⟨?_, ?_, ?_, ?_⟩
  · unfold apr1_verify
    rw [herr1]
    rfl
  · unfold bsdi_verify
    rw [herr2]
    rfl
  · unfold unix_verify
    rw [herr3]
    rfl
  · cases hv with
    | Apr1 s =>
      simp only [Hash.hash_with] at herr4
      simp only [Hash.verify]
      unfold apr1_verify
      rw [herr4]
      rfl
    | Bcrypt s =>
      simp only [Hash.hash_with] at herr4
      simp only [Hash.verify]
      unfold bcrypt_verify
      rw [herr4]
      rfl
    | Bsdi s =>
      simp only [Hash.hash_with] at herr4
      simp only [Hash.verify]
      unfold bsdi_verify
      rw [herr4]
      rfl
    | Md5 s =>
      simp only [Hash.hash_with] at herr4
      simp only [Hash.verify]
      unfold md5_verify
      rw [herr4]
      rfl
    | Sha1 s =>
      simp only [Hash.hash_with] at herr4
      simp only [Hash.verify]
      rw [herr4]
      rfl
    | Sha256 s =>
      simp only [Hash.hash_with] at herr4
      simp only [Hash.verify]
      unfold sha256_verify
      rw [herr4]
      rfl
    | Sha512 s =>
      simp only [Hash.hash_with] at herr4
      simp only [Hash.verify]
      unfold sha512_verify
      rw [herr4]
      rfl
    | Unix s =>
      simp only [Hash.hash_with] at herr4
      simp only [Hash.verify]
      unfold unix_verify unix_hash_with at *
      cases hc : unix_crypt en.unix pass s with
      | error e => rfl
      | ok v =>
        rw [show Except.map Hash.Unix (unix_crypt en.unix pass s) =
            Except.map Hash.Unix (Except.ok v) from by rw [hc]] at herr4
        exact absurd herr4 (by simp [Except.map])

/-- C2 witness: the malformed candidate `"!!"` makes every recomputation
fail and every verify return `false`. -/
theorem spec_verify_absorbs_witness :
    apr1_verify dEngines.md5 [] [33, 33] zeroRand = false ∧
    bsdi_verify dEngines.bsdi [] [33, 33] zeroRand = false ∧
    unix_verify dEngines.unix [] [33, 33] = false ∧
    Hash.verify dEngines (Hash.Apr1 [33, 33]) [] zeroRand = false :=
  spec_verify_absorbs dEngines [] [33, 33] [33, 33] [33, 33] zeroRand
    (Hash.Apr1 [33, 33]) .InvalidHashString .InvalidHashString .EncodingError
    .InvalidHashString rfl rfl rfl rfl

/-- C4 counterexample: with explicit `rounds = 1` — in range — the call
still fails when the supplied salt is too short (here the empty salt, with
`InsufficientLength`), so "for every password and salt … the call
succeeds" is false as stated. -/
theorem spec_bsdi_rounds_cx :
    bsdi_hash_with (fun _ _ _ => List.replicate 11 46)
      (.inl ⟨some [], some 1⟩) [] zeroRand = .error .InsufficientLength ∧
    ¬∃ h, bsdi_hash_with (fun _ _ _ => List.replicate 11 46)
      (.inl ⟨some [], some 1⟩) [] zeroRand = .ok h := by
  refine ⟨rfl, ?_⟩
  rintro ⟨h, hh⟩
  rw [show bsdi_hash_with (fun _ _ _ => List.replicate 11 46)
      (.inl ⟨some [], some 1⟩) [] zeroRand = .error .InsufficientLength from rfl] at hh
  exact absurd hh (by simp)

/-- C4 amended: for every password and salt, explicit `rounds = 0` fails
with `InvalidRounds`; more generally, an explicitly supplied rounds value
outside `1..=2^24-1` always fails with `InvalidRounds` — it is never
clamped into range; with `rounds = 1` or `rounds = 2^24 - 1` the rounds
check passes (the result is never `InvalidRounds`), and whenever the salt
is well-formed (at least 4 radix-64 characters) the call succeeds with a
hash embedding exactly the supplied rounds value — in-range values are not
clamped either. -/
theorem spec_bsdi_rounds_amended (cs : List Nat → List Nat → Nat → List Nat)
    (pass salt : List Nat) (rand : Nat → Nat) (r rbad : Nat)
    (hr : r = 1 ∨ r = 2 ^ 24 - 1)
    (hrbad : rbad < bsdiMIN_ROUNDS ∨ bsdiMAX_ROUNDS < rbad) :
    bsdi_hash_with cs (.inl ⟨some salt, some 0⟩) pass rand = .error .InvalidRounds ∧
    bsdi_hash_with cs (.inl ⟨some salt, some rbad⟩) pass rand = .error .InvalidRounds ∧
    (∀ e, bsdi_hash_with cs (.inl ⟨some salt, some r⟩) pass rand = .error e →
      e ≠ .InvalidRounds) ∧
    (4 ≤ salt.length → (salt.take 4).all inAlpha = true →
      bsdi_hash_with cs (.inl ⟨some salt, some r⟩) pass rand =
        .ok (.Bsdi (strBytes "_" ++ encode_val r 4 ++ salt.take 4 ++
          cs pass (salt.take 4) r))) := by
  have hm1 : bsdiMIN_ROUNDS = 1 := rfl
  have hm2 : bsdiMAX_ROUNDS = 16777215 := by norm_num [bsdiMAX_ROUNDS]
  have hrange : bsdiMIN_ROUNDS ≤ r ∧ r ≤ bsdiMAX_ROUNDS := by
    rcases hr with h | h <;> subst h <;> norm_num [bsdiMIN_ROUNDS, bsdiMAX_ROUNDS]
  have hrun : bsdi_hash_with cs (.inl ⟨some salt, some r⟩) pass rand =
      (bsdi_crypt cs pass salt r).map Hash.Bsdi := by
    unfold bsdi_hash_with into_hash_setup
    simp only []
    rw [if_pos hrange]
  refine ⟨?_, ?_, ?_, ?_⟩
  · unfold bsdi_hash_with into_hash_setup
    simp only []
    rw [if_neg (by norm_num [bsdiMIN_ROUNDS])]
  · unfold bsdi_hash_with into_hash_setup
    simp only []
    rw [if_neg (by intro hc; rw [hm1, hm2] at hrbad; omega)]
  · intro e he
    rw [hrun] at he
    cases hc : bsdi_crypt cs pass salt r with
    | error e2 =>
      rw [hc] at he
      simp only [Except.map] at he
      have := Except.error.inj he
      rcases bsdi_crypt_error cs pass salt r e2 hc with h | h <;>
        (rw [← this, h]; intro hcon; exact absurd hcon (by simp))
    | ok v =>
      rw [hc] at he
      exact absurd he (by simp [Except.map])
  · intro hsl ha
    rw [hrun]
    unfold bsdi_crypt
    rw [if_neg (by omega), if_pos ha]
    rfl

/-- C4 amended witness: with the salt `"K0Ay"`, `rounds = 0` and
`rounds = 2^24` are `InvalidRounds` (never clamped), and `rounds = 1`
succeeds with the rounds field encoding exactly 1. -/
theorem spec_bsdi_rounds_amended_witness :
    bsdi_hash_with dEngines.bsdi (.inl ⟨some (strBytes "K0Ay"), some 0⟩) []
      zeroRand = .error .InvalidRounds ∧
    bsdi_hash_with dEngines.bsdi (.inl ⟨some (strBytes "K0Ay"), some (2 ^ 24)⟩) []
      zeroRand = .error .InvalidRounds ∧
    bsdi_hash_with dEngines.bsdi (.inl ⟨some (strBytes "K0Ay"), some 1⟩) []
      zeroRand =
      .ok (.Bsdi (strBytes "_" ++ encode_val 1 4 ++ (strBytes "K0Ay").take 4 ++
        dEngines.bsdi [] ((strBytes "K0Ay").take 4) 1)) :=
  ⟨(spec_bsdi_rounds_amended dEngines.bsdi [] (strBytes "K0Ay") zeroRand 1 (2 ^ 24)
      (Or.inl rfl) (by norm_num [bsdiMIN_ROUNDS, bsdiMAX_ROUNDS])).1,
   (spec_bsdi_rounds_amended dEngines.bsdi [] (strBytes "K0Ay") zeroRand 1 (2 ^ 24)
      (Or.inl rfl) (by norm_num [bsdiMIN_ROUNDS, bsdiMAX_ROUNDS])).2.1,
   (spec_bsdi_rounds_amended dEngines.bsdi [] (strBytes "K0Ay") zeroRand 1 (2 ^ 24)
      (Or.inl rfl) (by norm_num [bsdiMIN_ROUNDS, bsdiMAX_ROUNDS])).2.2.2
      (by decide) (by decide)⟩

/-- C5: for Md5 and Apr1 `hash_with`, a caller-supplied salt longer than 8
characters is truncated to exactly its first 8 characters before the
engine runs, and the salt field of the resulting hash string has length
exactly 8. -/
theorem spec_salt_truncation (cs : List Nat → List Nat → List Nat)
    (stp : HashSetup) (pass : List Nat) (rand : Nat → Nat) (salt : List Nat)
    (hsalt : stp.salt = some salt) (hlong : MAX_SALT_LEN < salt.length)
    (hascii : ∀ b ∈ salt, b ≤ 127) :
    apr1_hash_with cs (.inl stp) pass rand =
      (do_md5_crypt cs pass (salt.take MAX_SALT_LEN) APR1_MAGIC).map Hash.Apr1 ∧
    md5_hash_with cs (.inl stp) pass rand =
      (do_md5_crypt cs pass (salt.take MAX_SALT_LEN) MD5_MAGIC).map Hash.Md5 ∧
    (salt.take MAX_SALT_LEN).length = MAX_SALT_LEN ∧
    (∀ h, apr1_hash_with cs (.inl stp) pass rand = .ok h →
      parse_md5c_hash APR1_MAGIC h.toBytes =
        .ok ⟨some (salt.take MAX_SALT_LEN), none⟩) := by
  have hcore : ∀ magic, md5c_hash_with magic cs (.inl stp) pass rand =
      do_md5_crypt cs pass (salt.take MAX_SALT_LEN) magic := by
    intro magic
    unfold md5c_hash_with into_hash_setup
    simp only []
    rw [hsalt]
    simp only []
    rw [if_neg (by omega)]
    have havail : (HashSlice.new salt).pos + MAX_SALT_LEN ≤ (HashSlice.new salt).len := by
      simp only [HashSlice.new]
      omega
    rw [take_of_avail _ _ havail]
    simp only [HashSlice.new, List.drop_zero]
    rw [if_pos (utf8Valid_of_ascii fun b hb => hascii b (List.mem_of_mem_take hb))]
  have hlen8 : (salt.take MAX_SALT_LEN).length = MAX_SALT_LEN := by
    rw [List.length_take]
    omega
  refine ⟨?_, ?_, hlen8, ?_⟩
  · unfold apr1_hash_with
    rw [hcore]
  · unfold md5_hash_with
    rw [hcore]
  · intro h hok
    unfold apr1_hash_with at hok
    obtain ⟨out, hout, hh⟩ := (exceptMap_ok_iff _ _ _).mp hok
    rw [hcore] at hout
    obtain ⟨ha, hform⟩ := do_md5_crypt_ok cs pass _ APR1_MAGIC out hout
    rw [hh]
    simp only [Hash.toBytes]
    rw [hform]
    exact parse_md5c_of_form APR1_MAGIC _ _ APR1_MAGIC_ascii ha

/-- C5 witness: a 9-character salt is truncated to its first 8
characters, a salt field of length exactly 8. -/
theorem spec_salt_truncation_witness :
    apr1_hash_with dEngines.md5 (.inl ⟨some (strBytes "AAAAAAAAA"), none⟩) []
        zeroRand =
      (do_md5_crypt dEngines.md5 [] ((strBytes "AAAAAAAAA").take MAX_SALT_LEN)
        APR1_MAGIC).map Hash.Apr1 ∧
    ((strBytes "AAAAAAAAA").take MAX_SALT_LEN).length = MAX_SALT_LEN :=
  ⟨(spec_salt_truncation dEngines.md5 ⟨some (strBytes "AAAAAAAAA"), none⟩ []
      zeroRand (strBytes "AAAAAAAAA") rfl (by decide) (by decide)).1,
   (spec_salt_truncation dEngines.md5 ⟨some (strBytes "AAAAAAAAA"), none⟩ []
      zeroRand (strBytes "AAAAAAAAA") rfl (by decide) (by decide)).2.2.1⟩

/-! ### Per-variant produced-implies-round-trips helpers -/

theorem apr1_rt_of_produced (cs : List Nat → List Nat → List Nat)
    (pass : List Nat) (rand rand2 : Nat → Nat) (param : HashSetup ⊕ List Nat)
    (h : Hash)
    (hp : apr1_hash cs pass rand = .ok h ∨ apr1_hash_with cs param pass rand = .ok h) :
    ∃ out, h = Hash.Apr1 out ∧ apr1_hash_with cs (.inr out) pass rand2 = .ok h := by
  have hex : ∃ out, h = Hash.Apr1 out ∧ ∃ s, out = APR1_MAGIC ++ s ++ [36] ++ cs pass s ∧
      s.length ≤ MAX_SALT_LEN ∧ s.all inAlpha = true := by
    rcases hp with hp | hp
    · unfold apr1_hash at hp
      obtain ⟨out, hout, hh⟩ := (exceptMap_ok_iff _ _ _).mp hp
      obtain ⟨ha, hform⟩ := do_md5_crypt_ok cs pass _ APR1_MAGIC out hout
      exact ⟨out, hh, _, hform, le_of_eq (gen_salt_str_length _ _), ha⟩
    · unfold apr1_hash_with at hp
      obtain ⟨out, hout, hh⟩ := (exceptMap_ok_iff _ _ _).mp hp
      obtain ⟨s, hform, hlen, ha⟩ := md5c_produced APR1_MAGIC cs param pass rand out hout
      exact ⟨out, hh, s, hform, hlen, ha⟩
  obtain ⟨out, hh, s, hform, hlen, ha⟩ := hex
  refine ⟨out, hh, ?_⟩
  unfold apr1_hash_with
  rw [hform, md5c_rt APR1_MAGIC cs pass rand2 s APR1_MAGIC_ascii ha hlen, hh, hform]
  rfl

theorem md5_rt_of_produced (cs : List Nat → List Nat → List Nat)
    (pass : List Nat) (rand rand2 : Nat → Nat) (param : HashSetup ⊕ List Nat)
    (h : Hash)
    (hp : md5_hash cs pass rand = .ok h ∨ md5_hash_with cs param pass rand = .ok h) :
    ∃ out, h = Hash.Md5 out ∧ md5_hash_with cs (.inr out) pass rand2 = .ok h := by
  have hex : ∃ out, h = Hash.Md5 out ∧ ∃ s, out = MD5_MAGIC ++ s ++ [36] ++ cs pass s ∧
      s.length ≤ MAX_SALT_LEN ∧ s.all inAlpha = true := by
    rcases hp with hp | hp
    · unfold md5_hash at hp
      obtain ⟨out, hout, hh⟩ := (exceptMap_ok_iff _ _ _).mp hp
      obtain ⟨ha, hform⟩ := do_md5_crypt_ok cs pass _ MD5_MAGIC out hout
      exact ⟨out, hh, _, hform, le_of_eq (gen_salt_str_length _ _), ha⟩
    · unfold md5_hash_with at hp
      obtain ⟨out, hout, hh⟩ := (exceptMap_ok_iff _ _ _).mp hp
      obtain ⟨s, hform, hlen, ha⟩ := md5c_produced MD5_MAGIC cs param pass rand out hout
      exact ⟨out, hh, s, hform, hlen, ha⟩
  obtain ⟨out, hh, s, hform, hlen, ha⟩ := hex
  refine ⟨out, hh, ?_⟩
  unfold md5_hash_with
  rw [hform, md5c_rt MD5_MAGIC cs pass rand2 s MD5_MAGIC_ascii ha hlen, hh, hform]
  rfl

theorem bsdi_rt_of_produced (cs : List Nat → List Nat → Nat → List Nat)
    (pass : List Nat) (rand rand2 : Nat → Nat) (param : HashSetup ⊕ List Nat)
    (h : Hash)
    (hp : bsdi_hash cs pass rand = .ok h ∨ bsdi_hash_with cs param pass rand = .ok h) :
    ∃ out, h = Hash.Bsdi out ∧ bsdi_hash_with cs (.inr out) pass rand2 = .ok h := by
  have hex : ∃ r s4, h = Hash.Bsdi (strBytes "_" ++ encode_val r 4 ++ s4 ++ cs pass s4 r) ∧
      bsdiMIN_ROUNDS ≤ r ∧ r ≤ bsdiMAX_ROUNDS ∧ s4.length = 4 ∧
      s4.all inAlpha = true := by
    rcases hp with hp | hp
    · unfold bsdi_hash at hp
      obtain ⟨out, hout, hh⟩ := (exceptMap_ok_iff _ _ _).mp hp
      obtain ⟨hsl, hsa, hform⟩ := bsdi_crypt_ok cs pass _ bsdiDEFAULT_ROUNDS out hout
      refine ⟨bsdiDEFAULT_ROUNDS, (gen_salt_str bsdiSALT_LEN rand).take 4,
        by rw [hh, hform], by norm_num [bsdiMIN_ROUNDS, bsdiDEFAULT_ROUNDS],
        by norm_num [bsdiDEFAULT_ROUNDS, bsdiMAX_ROUNDS], ?_, hsa⟩
      rw [List.length_take, gen_salt_str_length]
      rfl
    · exact bsdi_produced cs param pass rand h hp
  obtain ⟨r, s4, hh, hr1, hr2, hsl, hsa⟩ := hex
  refine ⟨_, hh, ?_⟩
  rw [hh]
  exact bsdi_rt cs pass rand2 r s4 hr1 hr2 hsl hsa

theorem unix_rt_of_produced (cs : List Nat → List Nat → List Nat)
    (pass usalt : List Nat) (rand : Nat → Nat) (h : Hash)
    (hp : unix_hash cs pass rand = .ok h ∨ unix_hash_with cs usalt pass = .ok h) :
    ∃ out, h = Hash.Unix out ∧ unix_hash_with cs out pass = .ok h := by
  have hex : ∃ s2, h = Hash.Unix (s2 ++ cs pass s2) ∧ s2.length = 2 ∧
      s2.all inAlpha = true := by
    rcases hp with hp | hp
    · unfold unix_hash at hp
      obtain ⟨out, hout, hh⟩ := (exceptMap_ok_iff _ _ _).mp hp
      obtain ⟨hsl, hsa, hform⟩ := unix_crypt_ok cs pass _ out hout
      refine ⟨(gen_salt_str 2 rand).take 2, by rw [hh, hform], ?_, hsa⟩
      rw [List.length_take, gen_salt_str_length]
      rfl
    · unfold unix_hash_with at hp
      obtain ⟨out, hout, hh⟩ := (exceptMap_ok_iff _ _ _).mp hp
      obtain ⟨hsl, hsa, hform⟩ := unix_crypt_ok cs pass usalt out hout
      refine ⟨usalt.take 2, by rw [hh, hform], ?_, hsa⟩
      rw [List.length_take]
      omega
  obtain ⟨s2, hh, hl, ha⟩ := hex
  refine ⟨_, hh, ?_⟩
  rw [hh]
  unfold unix_hash_with
  rw [unix_crypt_self cs pass s2 hl ha]
  rfl

theorem sha_rt_of_produced (magic : List Nat) (cs : List Nat → List Nat → Nat → List Nat)
    (mk : List Nat → Hash) (param : HashSetup ⊕ List Nat) (pass : List Nat)
    (rand rand2 : Nat → Nat) (h : Hash) (hmagic : ∀ b ∈ magic, b ≤ 127)
    (hp : sha_hash_with magic cs mk param pass rand = .ok h) :
    ∃ out, h = mk out ∧ sha_hash_with magic cs mk (.inr out) pass rand2 = .ok h := by
  obtain ⟨salt, ha, hsl, hcase⟩ := sha_produced magic cs mk param pass rand h hp
  rcases hcase with hform | ⟨r, hr1, hr2, hform⟩
  · refine ⟨_, hform, ?_⟩
    rw [hform]
    exact sha_rt_none magic cs mk pass rand2 salt hmagic ha hsl
  · refine ⟨_, hform, ?_⟩
    rw [hform]
    exact sha_rt_some magic cs mk pass rand2 salt r hmagic ha hsl hr1 hr2

theorem bcrypt_rt_of_produced (cs : List Nat → List Nat → Nat → List Nat → List Nat)
    (param : HashSetup ⊕ List Nat) (pass : List Nat) (rand rand2 : Nat → Nat)
    (h : Hash) (hp : bcrypt_hash_with cs param pass rand = .ok h) :
    ∃ out, h = Hash.Bcrypt out ∧ bcrypt_hash_with cs (.inr out) pass rand2 = .ok h := by
  obtain ⟨v, cost, salt, hv, hc1, hc2, hsl, ha, hform⟩ :=
    bcrypt_produced cs param pass rand h hp
  refine ⟨_, hform, ?_⟩
  rw [hform]
  exact bcrypt_rt cs pass rand2 v cost salt hv hc1 hc2 hsl ha

theorem SHA256_MAGIC_ascii : ∀ b ∈ SHA256_MAGIC, b ≤ 127 := by decide

theorem SHA512_MAGIC_ascii : ∀ b ∈ SHA512_MAGIC, b ≤ 127 := by decide

/-- C1: for every variant whose framing the excerpt determines (Apr1, Md5,
BsdiDes, UnixDes, Sha256, Sha512, Bcrypt) and every password, a hash `h`
produced by that variant's `hash` or `hash_with` re-derives to the
byte-identical hash: `hash_with(h, password) = h`, both through the module
function and through `Hash::hash_with` — the salt and rounds embedded in
`h` reproduce the identical string, for every opaque digest engine. -/
theorem spec_roundtrip (en : Engines) (pass usalt : List Nat)
    (p1 p2 p3 p4 p5 p6 : HashSetup ⊕ List Nat) (rand rand2 : Nat → Nat) (h : Hash) :
    ((apr1_hash en.md5 pass rand = .ok h ∨ apr1_hash_with en.md5 p1 pass rand = .ok h) →
      apr1_hash_with en.md5 (.inr h.toBytes) pass rand2 = .ok h ∧
      Hash.hash_with en h pass rand2 = .ok h) ∧
    ((md5_hash en.md5 pass rand = .ok h ∨ md5_hash_with en.md5 p2 pass rand = .ok h) →
      md5_hash_with en.md5 (.inr h.toBytes) pass rand2 = .ok h ∧
      Hash.hash_with en h pass rand2 = .ok h) ∧
    ((bsdi_hash en.bsdi pass rand = .ok h ∨ bsdi_hash_with en.bsdi p3 pass rand = .ok h) →
      bsdi_hash_with en.bsdi (.inr h.toBytes) pass rand2 = .ok h ∧
      Hash.hash_with en h pass rand2 = .ok h) ∧
    ((unix_hash en.unix pass rand = .ok h ∨ unix_hash_with en.unix usalt pass = .ok h) →
      unix_hash_with en.unix h.toBytes pass = .ok h ∧
      Hash.hash_with en h pass rand2 = .ok h) ∧
    ((sha256_hash en.sha256 pass rand = .ok h ∨
        sha256_hash_with en.sha256 p4 pass rand = .ok h) →
      sha256_hash_with en.sha256 (.inr h.toBytes) pass rand2 = .ok h ∧
      Hash.hash_with en h pass rand2 = .ok h) ∧
    ((sha512_hash en.sha512 pass rand = .ok h ∨
        sha512_hash_with en.sha512 p5 pass rand = .ok h) →
      sha512_hash_with en.sha512 (.inr h.toBytes) pass rand2 = .ok h ∧
      Hash.hash_with en h pass rand2 = .ok h) ∧
    ((bcrypt_hash en.bcrypt pass rand = .ok h ∨
        bcrypt_hash_with en.bcrypt p6 pass rand = .ok h) →
      bcrypt_hash_with en.bcrypt (.inr h.toBytes) pass rand2 = .ok h ∧
      Hash.hash_with en h pass rand2 = .ok h) := by
  refine ⟨?_, ?_, ?_, ?_, ?_, ?_, ?_⟩
  · intro hp
    obtain ⟨out, hh, hre⟩ := apr1_rt_of_produced en.md5 pass rand rand2 p1 h hp
    subst hh
    exact ⟨hre, hre⟩
  · intro hp
    obtain ⟨out, hh, hre⟩ := md5_rt_of_produced en.md5 pass rand rand2 p2 h hp
    subst hh
    exact ⟨hre, hre⟩
  · intro hp
    obtain ⟨out, hh, hre⟩ := bsdi_rt_of_produced en.bsdi pass rand rand2 p3 h hp
    subst hh
    exact ⟨hre, hre⟩
  · intro hp
    obtain ⟨out, hh, hre⟩ := unix_rt_of_produced en.unix pass usalt rand h hp
    subst hh
    exact ⟨hre, hre⟩
  · intro hp
    have hp2 : sha_hash_with SHA256_MAGIC en.sha256 Hash.Sha256 (.inl ⟨none, none⟩)
          pass rand = .ok h ∨
        sha_hash_with SHA256_MAGIC en.sha256 Hash.Sha256 p4 pass rand = .ok h := hp
    rcases hp2 with hp2 | hp2
    · obtain ⟨out, hh, hre⟩ := sha_rt_of_produced SHA256_MAGIC en.sha256 Hash.Sha256
        (.inl ⟨none, none⟩) pass rand rand2 h SHA256_MAGIC_ascii hp2
      subst hh
      exact ⟨hre, hre⟩
    · obtain ⟨out, hh, hre⟩ := sha_rt_of_produced SHA256_MAGIC en.sha256 Hash.Sha256
        p4 pass rand rand2 h SHA256_MAGIC_ascii hp2
      subst hh
      exact ⟨hre, hre⟩
  · intro hp
    have hp2 : sha_hash_with SHA512_MAGIC en.sha512 Hash.Sha512 (.inl ⟨none, none⟩)
          pass rand = .ok h ∨
        sha_hash_with SHA512_MAGIC en.sha512 Hash.Sha512 p5 pass rand = .ok h := hp
    rcases hp2 with hp2 | hp2
    · obtain ⟨out, hh, hre⟩ := sha_rt_of_produced SHA512_MAGIC en.sha512 Hash.Sha512
        (.inl ⟨none, none⟩) pass rand rand2 h SHA512_MAGIC_ascii hp2
      subst hh
      exact ⟨hre, hre⟩
    · obtain ⟨out, hh, hre⟩ := sha_rt_of_produced SHA512_MAGIC en.sha512 Hash.Sha512
        p5 pass rand rand2 h SHA512_MAGIC_ascii hp2
      subst hh
      exact ⟨hre, hre⟩
  · intro hp
    rcases hp with hp | hp
    · obtain ⟨out, hh, hre⟩ := bcrypt_rt_of_produced en.bcrypt (.inl ⟨none, none⟩)
        pass rand rand2 h hp
      subst hh
      exact ⟨hre, hre⟩
    · obtain ⟨out, hh, hre⟩ := bcrypt_rt_of_produced en.bcrypt p6 pass rand rand2 h hp
      subst hh
      exact ⟨hre, hre⟩

/-- C1 witness: a concrete apr1 hash produced from the salt `"AA"` with the
stand-in digest re-derives byte-identically, both module-level and through
`Hash::hash_with`. -/
theorem spec_roundtrip_witness :
    apr1_hash_with dEngines.md5
        (.inr (Hash.Apr1 (strBytes "$apr1$AA$......................")).toBytes)
        [] zeroRand =
      .ok (Hash.Apr1 (strBytes "$apr1$AA$......................")) ∧
    Hash.hash_with dEngines (Hash.Apr1 (strBytes "$apr1$AA$......................"))
        [] zeroRand =
      .ok (Hash.Apr1 (strBytes "$apr1$AA$......................")) :=
  (spec_roundtrip dEngines [] [] (.inl ⟨some (strBytes "AA"), none⟩)
    (.inl ⟨none, none⟩) (.inl ⟨none, none⟩) (.inl ⟨none, none⟩)
    (.inl ⟨none, none⟩) (.inl ⟨none, none⟩) zeroRand zeroRand
    (Hash.Apr1 (strBytes "$apr1$AA$......................"))).1
    (Or.inr (by rfl))

end Crypt3
